import Mathlib

/-!
Shallow embedding of the AURA RAG core (backend/app/services/): the chunk
processor, embedding service, vector search service and RAG pipeline.
Python floats are modelled as rationals (`ℚ`) except for the cosine
similarity, which divides by square roots and is modelled over `ℝ`.
External collaborators (OpenAI embeddings, Supabase tables, the training
data service) are modelled as explicit outcome parameters: `Option`/
function arguments standing for the values their calls produce, with
`none` standing for a raised exception.
-/

/-! ### Generic string helpers (Python `str.split()`, `str.strip()`, …) -/

/-- Split a character list at characters satisfying `p`; the pieces between
delimiters are returned in order (empty pieces included). -/
def splitCharsAux (p : Char → Bool) : List Char → List Char → List (List Char)
  | acc, [] => [acc.reverse]
  | acc, c :: cs =>
    if p c then acc.reverse :: splitCharsAux p [] cs
    else splitCharsAux p (c :: acc) cs

def splitChars (p : Char → Bool) (l : List Char) : List (List Char) :=
  splitCharsAux p [] l

/-- Python `str.split()` (no argument): split on whitespace runs, dropping
empty pieces. -/
def pyWords (s : String) : List String :=
  ((splitChars (fun c => c.isWhitespace) s.data).filter (fun w => w ≠ [])).map
    (fun w => String.mk w)

/-- Number of whitespace-separated words, i.e. `len(s.split())`. -/
def wordCount (s : String) : ℕ :=
  (pyWords s).length

def dropWhileWs : List Char → List Char
  | [] => []
  | c :: cs => if c.isWhitespace then dropWhileWs cs else c :: cs

/-- Python `str.strip()`: remove leading and trailing whitespace. -/
def pyStrip (s : String) : String :=
  String.mk ((dropWhileWs (dropWhileWs s.data).reverse).reverse)

/-- Python `sep.join(parts)` for a single-space separator. -/
def joinSp (parts : List String) : String :=
  String.intercalate " " parts

/-- Python `"\n\n".join(parts)` and friends. -/
def joinWith (sep : String) (parts : List String) : String :=
  String.intercalate sep parts

/-- Does `needle` occur at the head of `hay`? -/
def startsAt : List Char → List Char → Bool
  | [], _ => true
  | _ :: _, [] => false
  | n :: ns, h :: hs => n = h && startsAt ns hs

/-- Substring containment on character lists. -/
def hasSubList (needle : List Char) : List Char → Bool
  | [] => needle = []
  | h :: hs => startsAt needle (h :: hs) || hasSubList needle hs

/-- Python `needle in hay` substring test. -/
def hasSubstr (hay needle : String) : Bool :=
  hasSubList needle.data hay.data

/-- Count non-overlapping occurrences, Python `hay.count(needle)`
(for an empty needle Python returns `len(hay) + 1`); structural recursion
on a fuel argument instantiated with the hay length, which each step
consumes at least one character of. -/
def countOccFuel (needle : List Char) : ℕ → List Char → ℕ
  | 0, _ => 0
  | _, [] => 0
  | Nat.succ f, h :: hs =>
    if startsAt needle (h :: hs) then
      1 + countOccFuel needle f (List.drop (needle.length - 1) hs)
    else
      countOccFuel needle f hs

def pyCount (hay needle : String) : ℕ :=
  if needle.data = [] then hay.data.length + 1
  else countOccFuel needle.data hay.data.length hay.data

def toLowerStr (s : String) : String :=
  String.mk (s.data.map Char.toLower)

/-- Python `min` on two floats (kernel-reducible, unlike the lattice `⊓`). -/
def pyMin (a b : ℚ) : ℚ :=
  if a ≤ b then a else b

/-- Python `max` on two floats. -/
def pyMax (a b : ℚ) : ℚ :=
  if a ≤ b then b else a

theorem pyMin_eq_min (a b : ℚ) : pyMin a b = min a b :=
  (min_def a b).symm

theorem pyMax_eq_max (a b : ℚ) : pyMax a b = max a b := by
  rw [pyMax, max_def]

/-! ### Cosine similarity (`VectorSearchService._cosine_similarity`)

The Python code computes `dot(a,b) / (sqrt(Σa²) * sqrt(Σb²))`, returning 0
when the lengths differ or either norm is zero.  Floats are modelled as
real numbers. -/

def dotL (a b : List ℝ) : ℝ :=
  ((a.zip b).map (fun p => p.1 * p.2)).sum

def sumSq (a : List ℝ) : ℝ :=
  (a.map (fun x => x * x)).sum

/-- `VectorSearchService._cosine_similarity`. -/
noncomputable def cosineSimilarity (vec1 vec2 : List ℝ) : ℝ :=
  if vec1.length ≠ vec2.length then 0
  else
    let dotProduct := dotL vec1 vec2
    let normA := Real.sqrt (sumSq vec1)
    let normB := Real.sqrt (sumSq vec2)
    if normA = 0 ∨ normB = 0 then 0
    else dotProduct / (normA * normB)

theorem sumSq_nonneg (a : List ℝ) : 0 ≤ sumSq a := by
  induction a with
  | nil => simp [sumSq]
  | cons x xs ih =>
    simp only [sumSq, List.map_cons, List.sum_cons]
    have : 0 ≤ x * x := mul_self_nonneg x
    have h2 : sumSq xs = (xs.map (fun x => x * x)).sum := rfl
    nlinarith [ih]

theorem sumSq_pos {a : List ℝ} {x : ℝ} (hx : x ∈ a) (hx0 : x ≠ 0) :
    0 < sumSq a := by
  induction a with
  | nil => cases hx
  | cons y ys ih =>
    simp only [sumSq, List.map_cons, List.sum_cons]
    have hys : (0:ℝ) ≤ sumSq ys := sumSq_nonneg ys
    simp only [sumSq] at hys
    rcases List.mem_cons.mp hx with h | h
    · subst h
      have hpos : 0 < x * x := mul_self_pos.mpr hx0
      nlinarith
    · have hpos := ih h
      simp only [sumSq] at hpos
      have hyy : 0 ≤ y * y := mul_self_nonneg y
      nlinarith

theorem dotL_self (a : List ℝ) : dotL a a = sumSq a := by
  induction a with
  | nil => rfl
  | cons x xs ih =>
    simp only [dotL, sumSq, List.zip_cons_cons, List.map_cons, List.sum_cons] at *
    rw [ih]

theorem dotL_sq_le (a : List ℝ) : ∀ b : List ℝ, (dotL a b) ^ 2 ≤ sumSq a * sumSq b := by
  induction a with
  | nil => intro b; simp [dotL, sumSq]
  | cons x xs ih =>
    intro b
    cases b with
    | nil => simp [dotL, sumSq]
    | cons y ys =>
      have hA : (0:ℝ) ≤ sumSq xs := sumSq_nonneg xs
      have hB : (0:ℝ) ≤ sumSq ys := sumSq_nonneg ys
      have ihd := ih ys
      have e1 : dotL (x :: xs) (y :: ys) = x * y + dotL xs ys := by
        simp [dotL]
      have e2 : sumSq (x :: xs) = x * x + sumSq xs := by
        simp [sumSq]
      have e3 : sumSq (y :: ys) = y * y + sumSq ys := by
        simp [sumSq]
      rw [e1, e2, e3]
      generalize hdg : dotL xs ys = d at ihd
      generalize hAg : sumSq xs = A at ihd hA
      generalize hBg : sumSq ys = B at ihd hB
      rcases eq_or_lt_of_le hB with hB0 | hBpos
      · have hd2 : d ^ 2 ≤ 0 := by nlinarith
        have hdz : d = 0 := by
          have := sq_nonneg d
          have h0 : d ^ 2 = 0 := le_antisymm hd2 this
          exact pow_eq_zero_iff (n := 2) (by norm_num) |>.mp h0
        subst hdz
        rw [← hB0]
        nlinarith [mul_nonneg hA (mul_self_nonneg y), sq_nonneg (x * y)]
      · nlinarith [sq_nonneg (x * B - y * d),
          mul_nonneg (sq_nonneg y) (sub_nonneg.mpr ihd),
          mul_nonneg hBpos.le (sub_nonneg.mpr ihd)]

/-- C8: the computed cosine similarity always lies in `[-1, 1]`; the
similarity of a vector having a non-zero entry with itself is exactly 1;
and whenever either computed norm is zero, the function returns 0 instead
of dividing (so it never divides by zero). -/
theorem c8_cosine_bounds :
    (∀ a b : List ℝ, -1 ≤ cosineSimilarity a b ∧ cosineSimilarity a b ≤ 1) ∧
    (∀ v : List ℝ, (∃ x ∈ v, x ≠ 0) → cosineSimilarity v v = 1) ∧
    (∀ a b : List ℝ,
      Real.sqrt (sumSq a) = 0 ∨ Real.sqrt (sumSq b) = 0 →
      cosineSimilarity a b = 0) := by
  refine ⟨?_, ?_, ?_⟩
  · intro a b
    unfold cosineSimilarity
    by_cases hlen : a.length ≠ b.length
    · simp [hlen]
    · simp only [hlen, if_false]
      by_cases hz : Real.sqrt (sumSq a) = 0 ∨ Real.sqrt (sumSq b) = 0
      · simp [hz]
      · simp only [hz, if_false]
        push_neg at hz
        have hA0 : 0 ≤ Real.sqrt (sumSq a) := Real.sqrt_nonneg _
        have hB0 : 0 ≤ Real.sqrt (sumSq b) := Real.sqrt_nonneg _
        have hApos : 0 < Real.sqrt (sumSq a) := lt_of_le_of_ne hA0 (Ne.symm hz.1)
        have hBpos : 0 < Real.sqrt (sumSq b) := lt_of_le_of_ne hB0 (Ne.symm hz.2)
        have hden : 0 < Real.sqrt (sumSq a) * Real.sqrt (sumSq b) :=
          mul_pos hApos hBpos
        have habs : |dotL a b| ≤ Real.sqrt (sumSq a) * Real.sqrt (sumSq b) := by
          have h1 : (dotL a b) ^ 2 ≤ sumSq a * sumSq b := dotL_sq_le a b
          have h2 : Real.sqrt ((dotL a b) ^ 2) ≤ Real.sqrt (sumSq a * sumSq b) :=
            Real.sqrt_le_sqrt h1
          rwa [Real.sqrt_sq_eq_abs, Real.sqrt_mul (sumSq_nonneg a)] at h2
        have hq : |dotL a b / (Real.sqrt (sumSq a) * Real.sqrt (sumSq b))| ≤ 1 := by
          rw [abs_div, abs_of_pos hden]
          exact (div_le_one hden).mpr habs
        exact abs_le.mp hq
  · intro v hv
    obtain ⟨x, hx, hx0⟩ := hv
    have hpos : 0 < sumSq v := sumSq_pos hx hx0
    have hs : 0 < Real.sqrt (sumSq v) := Real.sqrt_pos.mpr hpos
    unfold cosineSimilarity
    simp only [ne_eq, not_true_eq_false, if_false, ite_not]
    have hnz : ¬(Real.sqrt (sumSq v) = 0 ∨ Real.sqrt (sumSq v) = 0) := by
      simp [ne_of_gt hs]
    simp only [hnz, if_false]
    rw [dotL_self, Real.mul_self_sqrt hpos.le, div_self (ne_of_gt hpos)]
  · intro a b hz
    unfold cosineSimilarity
    by_cases hlen : a.length ≠ b.length
    · simp [hlen]
    · simp [hlen, hz]

/-- Witness for C8: the self-similarity clause applied at `[1, 0]`, whose
non-zero-entry hypothesis is discharged by evaluation. -/
theorem c8_cosine_bounds_witness :
    (∃ x ∈ ([1, 0] : List ℝ), x ≠ 0) ∧ cosineSimilarity [1, 0] [1, 0] = 1 :=
  ⟨⟨1, by simp, one_ne_zero⟩,
   c8_cosine_bounds.2.1 [1, 0] ⟨1, by simp, one_ne_zero⟩⟩

/-! ### Search results and the keyword leg (`VectorSearchService._keyword_search`)

The Supabase `ilike`-filtered rows are an external input; the embedding
takes the returned rows as a parameter and models the scoring/filter loop
over them.  Similarities are rationals (Python floats). -/

structure SearchResult where
  chunk_id : Option ℕ
  doc_id : Option String
  content : String
  similarity : ℚ
  metadata : List (String × String)
  source : String
  chunk_type : Option String
deriving Repr, DecidableEq

structure KwRow where
  chunk_id : Option ℕ
  doc_id : Option String
  chunk_text : String
  metadata : List (String × String)
deriving Repr, DecidableEq

/-- Python `dict.get` on the string-valued metadata mapping. -/
def lookupMeta (md : List (String × String)) (k : String) : Option String :=
  (md.find? (fun p => p.1 = k)).map (fun p => p.2)

/-- Scoring and filter loop of `VectorSearchService._keyword_search`
(lines 355-385): relevance is `min(count/10, 1.0)` of the case-insensitive
occurrence count of the whole query in the chunk text. -/
def keywordSearchResults (query : String) (assistantKey : Option String)
    (rows : List KwRow) : List SearchResult :=
  rows.filterMap (fun item =>
    let content := item.chunk_text
    let queryLower := toLowerStr query
    let contentLower := toLowerStr content
    let keywordCount := pyCount contentLower queryLower
    let relevance : ℚ := pyMin ((keywordCount : ℚ) / 10) 1
    let md := item.metadata
    let keep : Bool :=
      match assistantKey with
      | Option.none => true
      | Option.some ak => lookupMeta md "assistant_key" = Option.some ak
    if keep then
      Option.some
        { chunk_id := item.chunk_id
          doc_id := item.doc_id
          content := content
          similarity := relevance
          metadata := md
          source := "keyword_search"
          chunk_type := Option.none }
    else Option.none)

/-- C5 (amended): every keyword-leg score lies in `[0, 1]` — the code
normalises with `min(count/10, 1.0)`, not `[0, 0.5]`. -/
theorem c5_keyword_score_bounds (query : String) (assistantKey : Option String)
    (rows : List KwRow) (r : SearchResult)
    (hr : r ∈ keywordSearchResults query assistantKey rows) :
    0 ≤ r.similarity ∧ r.similarity ≤ 1 := by
  unfold keywordSearchResults at hr
  rcases List.mem_filterMap.mp hr with ⟨item, -, hf⟩
  simp only at hf
  split at hf
  · have hr' := Option.some.inj hf
    subst hr'
    constructor
    · exact le_min (by positivity) zero_le_one
    · exact min_le_right _ _
  · exact absurd hf (by simp)

/-- Witness for C5 (amended): a single row containing the query once gets
score `1/10 ∈ [0, 1]`. -/
theorem c5_keyword_score_bounds_witness :
    (⟨Option.none, Option.none, "alpha beta", 1/10, [], "keyword_search",
        Option.none⟩ : SearchResult) ∈
      keywordSearchResults "beta" Option.none
        [⟨Option.none, Option.none, "alpha beta", []⟩] ∧
    (0 ≤ (1/10 : ℚ) ∧ (1/10 : ℚ) ≤ 1) := by
  constructor
  · with_unfolding_all decide
  · exact c5_keyword_score_bounds "beta" Option.none
      [⟨Option.none, Option.none, "alpha beta", []⟩]
      ⟨Option.none, Option.none, "alpha beta", 1/10, [], "keyword_search",
        Option.none⟩
      (by with_unfolding_all decide)

/-- Counterexample for C5 as stated: a chunk containing the query six
times scores `6/10 = 3/5`, outside `[0, 0.5]`. -/
theorem c5_keyword_score_counterexample :
    ((keywordSearchResults "x" Option.none
        [⟨Option.none, Option.none, "xxxxxx", []⟩]).map
      (fun r => r.similarity)) = [3/5] ∧ ¬((3/5 : ℚ) ≤ 1/2) := by
  constructor
  · with_unfolding_all decide
  · norm_num

/-! ### Embedding service (`EmbeddingService`)

`generate_batch_embeddings` / `_process_batch` with the OpenAI call
modelled as a `respond` function (`none` = the batch call raised) and the
embedding cache threaded explicitly.  Dimensions are 1536 as in the code;
cache keys are the stripped texts (standing for `hash(text.strip())`). -/

def embedDims : ℕ := 1536

def zeroVec : List ℚ := List.replicate embedDims 0

/-- The embedding cache: association list keyed by stripped text. -/
abbrev Cache : Type := List (String × List ℚ)

def cacheLookup (c : Cache) (k : String) : Option (List ℚ) :=
  ((c : List (String × List ℚ)).find? (fun p => p.1 = k)).map (fun p => p.2)

/-- Python `dict[k] = v` (overwrite or append). -/
def cacheInsert (c : Cache) (k : String) (v : List ℚ) : Cache :=
  if (c : List (String × List ℚ)).any (fun p => p.1 = k) then
    (c : List (String × List ℚ)).map (fun p => if p.1 = k then (k, v) else p)
  else (c : List (String × List ℚ)) ++ [(k, v)]

def cacheInsertAll (c : Cache) (ps : List (String × List ℚ)) : Cache :=
  ps.foldl (fun d p => cacheInsert d p.1 p.2) c

/-- Local `valid_texts` of `_process_batch`: stripped non-empty inputs. -/
def validTextsOf (batch : List String) : List String :=
  (batch.map pyStrip).filter (fun t => t ≠ "")

/-- Local `cached_embeddings` of `_process_batch`: the valid texts found in
the cache, with their cached vectors. -/
def cachedPairsOf (cache : Cache) (batch : List String) :
    List (String × List ℚ) :=
  (validTextsOf batch).filterMap
    (fun t => (cacheLookup cache t).map (fun v => (t, v)))

/-- Local `uncached_texts` of `_process_batch`. -/
def uncachedTextsOf (cache : Cache) (batch : List String) : List String :=
  (validTextsOf batch).filter (fun t => cacheLookup cache t = Option.none)

/-- The `new_embeddings` dict entries and resulting cache of
`_process_batch`: no external call when nothing is uncached; on a
successful call the texts are zipped with the returned vectors and cached;
on a failed call every uncached text maps to the zero vector and the cache
is left untouched. -/
def batchOutcome (respond : List String → Option (List (List ℚ)))
    (cache : Cache) (batch : List String) :
    List (String × List ℚ) × Cache :=
  if uncachedTextsOf cache batch = [] then ([], cache)
  else
    match respond (uncachedTextsOf cache batch) with
    | Option.some embs =>
      ((uncachedTextsOf cache batch).zip embs,
        cacheInsertAll cache ((uncachedTextsOf cache batch).zip embs))
    | Option.none =>
      ((uncachedTextsOf cache batch).map (fun t => (t, zeroVec)), cache)

/-- The per-input resolution loop of `_process_batch`: cached value first,
then fresh value, else the zero vector. -/
def resolveText (cachedDict newDict : Cache) (original : String) : List ℚ :=
  match cacheLookup cachedDict (pyStrip original) with
  | Option.some v => v
  | Option.none =>
    match cacheLookup newDict (pyStrip original) with
    | Option.some v => v
    | Option.none => zeroVec

/-- `EmbeddingService._process_batch`: one output vector per input text in
order; empty/whitespace inputs and texts missed by a failed external call
map to the zero vector; fresh embeddings are cached only on success. -/
def processBatch (respond : List String → Option (List (List ℚ)))
    (cache : Cache) (batch : List String) : List (List ℚ) × Cache :=
  if validTextsOf batch = [] then (List.replicate batch.length zeroVec, cache)
  else
    (batch.map
      (resolveText (cacheInsertAll [] (cachedPairsOf cache batch))
        (cacheInsertAll [] (batchOutcome respond cache batch).1)),
      (batchOutcome respond cache batch).2)

/-- Batch partition of `range(0, len(texts), batch_size)`, with list length
as structural fuel (each step consumes at least one element). -/
def batchesGo (bs : ℕ) : ℕ → List String → List (List String)
  | 0, _ => []
  | _, [] => []
  | Nat.succ f, x :: xs => (x :: xs).take bs :: batchesGo bs f ((x :: xs).drop bs)

/-- `EmbeddingService.generate_batch_embeddings`: split into batches
(default/falsy batch size 100), process each batch sequentially threading
the cache. -/
def generateBatchEmbeddings (respond : List String → Option (List (List ℚ)))
    (cache : Cache) (texts : List String) (batchSize : Option ℕ) :
    List (List ℚ) × Cache :=
  if texts = [] then ([], cache)
  else
    let bs := match batchSize with
      | Option.some b => if b = 0 then 100 else b
      | Option.none => 100
    let batches := batchesGo bs texts.length texts
    batches.foldl (fun acc b =>
      let pr := processBatch respond acc.2 b
      (acc.1 ++ pr.1, pr.2)) ([], cache)

theorem cacheLookup_cons (p : String × List ℚ) (ps : Cache) (k : String) :
    cacheLookup (p :: ps) k =
      (if p.1 = k then Option.some p.2 else cacheLookup ps k) := by
  unfold cacheLookup
  rw [List.find?_cons]
  by_cases hp : p.1 = k
  · simp [hp]
  · simp [hp]

theorem cacheLookup_map_self (c : Cache) (k : String) (v : List ℚ) :
    cacheLookup (c.map (fun p => if p.1 = k then (k, v) else p)) k =
      (if c.any (fun p => p.1 = k) then Option.some v else Option.none) := by
  induction c with
  | nil => rfl
  | cons p ps ih =>
    by_cases hp : p.1 = k
    · simp [List.map_cons, cacheLookup_cons, hp]
    · simp only [List.map_cons, cacheLookup_cons, if_neg hp, ih, List.any_cons]
      simp only [decide_eq_false hp, Bool.false_or]

theorem cacheLookup_map_other (c : Cache) (k : String) (v : List ℚ)
    (k' : String) (h : k' ≠ k) :
    cacheLookup (c.map (fun p => if p.1 = k then (k, v) else p)) k' =
      cacheLookup c k' := by
  induction c with
  | nil => rfl
  | cons p ps ih =>
    rw [List.map_cons]
    by_cases hp : p.1 = k
    · rw [if_pos hp, cacheLookup_cons, cacheLookup_cons]
      have h1 : ¬((k, v).1 = k') := fun hh => h hh.symm
      have h2 : ¬(p.1 = k') := by rw [hp]; exact fun hh => h hh.symm
      rw [if_neg h1, if_neg h2, ih]
    · rw [if_neg hp, cacheLookup_cons, cacheLookup_cons, ih]

theorem cacheLookup_insert (c : Cache) (k : String) (v : List ℚ) (k' : String) :
    cacheLookup (cacheInsert c k v) k' =
      (if k' = k then Option.some v else cacheLookup c k') := by
  unfold cacheInsert
  by_cases hany : c.any (fun p => p.1 = k)
  · rw [if_pos hany]
    by_cases hk : k' = k
    · subst hk; rw [if_pos rfl, cacheLookup_map_self, if_pos hany]
    · rw [if_neg hk, cacheLookup_map_other c k v k' hk]
  · rw [if_neg hany]
    have hnone : c.find? (fun p => p.1 = k) = Option.none := by
      rw [List.find?_eq_none]
      intro x hxmem hxk
      exact hany ((List.any_eq_true).mpr ⟨x, hxmem, hxk⟩)
    by_cases hk : k' = k
    · subst hk
      rw [if_pos rfl]
      simp [cacheLookup, List.find?_append, hnone]
    · rw [if_neg hk]
      simp only [cacheLookup, List.find?_append]
      cases hfind : c.find? (fun p => p.1 = k') with
      | some q => simp
      | none =>
        have : ¬((k, v).1 = k') := fun hh => hk hh.symm
        simp [this]

theorem cacheLookup_insertAll (ps : List (String × List ℚ)) :
    ∀ (d : Cache) (k : String),
      cacheLookup (cacheInsertAll d ps) k =
        (match ps.reverse.find? (fun p => p.1 = k) with
         | Option.some q => Option.some q.2
         | Option.none => cacheLookup d k) := by
  induction ps with
  | nil => intro d k; rfl
  | cons p ps ih =>
    intro d k
    have step : cacheInsertAll d (p :: ps) =
        cacheInsertAll (cacheInsert d p.1 p.2) ps := rfl
    rw [step, ih]
    rw [List.reverse_cons, List.find?_append]
    cases hfind : ps.reverse.find? (fun q => q.1 = k) with
    | some q => simp
    | none =>
      simp only [Option.orElse_none, Option.none_orElse]
      rw [cacheLookup_insert]
      by_cases hk : k = p.1
      · subst hk
        simp [List.find?_cons]
      · have : ¬(p.1 = k) := fun hh => hk hh.symm
        simp [List.find?_cons, this, hk]

theorem cacheLookup_insertAll_const (v0 : List ℚ) (ps : List (String × List ℚ))
    (h : ∀ q ∈ ps, q.2 = v0) (k : String) :
    cacheLookup (cacheInsertAll [] ps) k =
      (if k ∈ ps.map Prod.fst then Option.some v0 else Option.none) := by
  rw [cacheLookup_insertAll]
  cases hf : ps.reverse.find? (fun p => p.1 = k) with
  | some q =>
    dsimp only
    have hmem : q ∈ ps := List.mem_reverse.mp (List.mem_of_find?_eq_some hf)
    have hkey : q.1 = k := by
      have := List.find?_some hf
      simpa using this
    rw [h q hmem, if_pos (List.mem_map.mpr ⟨q, hmem, hkey⟩)]
  | none =>
    rw [List.find?_eq_none] at hf
    rw [if_neg]
    · rfl
    · intro hk
      rcases List.mem_map.mp hk with ⟨q, hq, hq1⟩
      exact (hf q (List.mem_reverse.mpr hq)) (by simp [hq1])

theorem cacheLookup_insertAll_fn (f : String → Option (List ℚ))
    (ps : List (String × List ℚ))
    (h : ∀ q ∈ ps, f q.1 = Option.some q.2) (k : String) :
    cacheLookup (cacheInsertAll [] ps) k =
      (if k ∈ ps.map Prod.fst then f k else Option.none) := by
  rw [cacheLookup_insertAll]
  cases hf : ps.reverse.find? (fun p => p.1 = k) with
  | some q =>
    dsimp only
    have hmem : q ∈ ps := List.mem_reverse.mp (List.mem_of_find?_eq_some hf)
    have hkey : q.1 = k := by
      have := List.find?_some hf
      simpa using this
    rw [if_pos (List.mem_map.mpr ⟨q, hmem, hkey⟩), ← hkey, h q hmem]
  | none =>
    rw [List.find?_eq_none] at hf
    rw [if_neg]
    · rfl
    · intro hk
      rcases List.mem_map.mp hk with ⟨q, hq, hq1⟩
      exact (hf q (List.mem_reverse.mpr hq)) (by simp [hq1])

theorem processBatch_length (respond : List String → Option (List (List ℚ)))
    (cache : Cache) (batch : List String) :
    (processBatch respond cache batch).1.length = batch.length := by
  unfold processBatch
  split
  · simp
  · simp

theorem mem_validTextsOf {batch : List String} {t : String} :
    t ∈ validTextsOf batch ↔ (t ∈ batch.map pyStrip ∧ t ≠ "") := by
  unfold validTextsOf
  rw [List.mem_filter]
  simp

theorem cachedPairs_spec (cache : Cache) (batch : List String) :
    ∀ q ∈ cachedPairsOf cache batch,
      cacheLookup cache q.1 = Option.some q.2 := by
  intro q hq
  unfold cachedPairsOf at hq
  rcases List.mem_filterMap.mp hq with ⟨t, ht, hmap⟩
  rcases Option.map_eq_some'.mp hmap with ⟨v, hv, hq'⟩
  rw [← hq']
  simpa using hv

theorem mem_keys_cachedPairs (cache : Cache) (batch : List String)
    (k : String) :
    k ∈ (cachedPairsOf cache batch).map Prod.fst ↔
      (k ∈ validTextsOf batch ∧ cacheLookup cache k ≠ Option.none) := by
  constructor
  · intro hk
    rcases List.mem_map.mp hk with ⟨q, hq, hq1⟩
    unfold cachedPairsOf at hq
    rcases List.mem_filterMap.mp hq with ⟨t, ht, hmap⟩
    rcases Option.map_eq_some'.mp hmap with ⟨v, hv, hq'⟩
    have ht' : q.1 = t := by rw [← hq']
    rw [← hq1, ht']
    exact ⟨ht, by rw [hv]; exact Option.some_ne_none v⟩
  · rintro ⟨hval, hne⟩
    rcases Option.ne_none_iff_exists'.mp hne with ⟨v, hv⟩
    apply List.mem_map.mpr
    refine ⟨(k, v), ?_, rfl⟩
    unfold cachedPairsOf
    apply List.mem_filterMap.mpr
    exact ⟨k, hval, by rw [hv]; rfl⟩

theorem cachedDict_lookup (cache : Cache) (batch : List String) (k : String) :
    cacheLookup (cacheInsertAll [] (cachedPairsOf cache batch)) k =
      (if k ∈ validTextsOf batch ∧ cacheLookup cache k ≠ Option.none
       then cacheLookup cache k else Option.none) := by
  rw [cacheLookup_insertAll_fn (cacheLookup cache) _ (cachedPairs_spec cache batch)]
  by_cases hk : k ∈ (cachedPairsOf cache batch).map Prod.fst
  · rw [if_pos hk, if_pos ((mem_keys_cachedPairs cache batch k).mp hk)]
  · rw [if_neg hk, if_neg (fun hc => hk ((mem_keys_cachedPairs cache batch k).mpr hc))]

theorem newDict_fail_lookup (cache : Cache) (batch : List String) (k : String) :
    cacheLookup
        (cacheInsertAll [] (batchOutcome (fun _ => Option.none) cache batch).1)
        k =
      (if k ∈ uncachedTextsOf cache batch then Option.some zeroVec
       else Option.none) := by
  unfold batchOutcome
  by_cases hu : uncachedTextsOf cache batch = []
  · rw [if_pos hu, hu]
    show (Option.none : Option (List ℚ)) = _
    rw [if_neg (List.not_mem_nil k)]
  · rw [if_neg hu]
    show cacheLookup
        (cacheInsertAll []
          ((uncachedTextsOf cache batch).map (fun t => (t, zeroVec)))) k = _
    rw [cacheLookup_insertAll_const zeroVec _
      (by intro q hq; rcases List.mem_map.mp hq with ⟨t, ht, hq'⟩; rw [← hq'])]
    have hkeys : ((uncachedTextsOf cache batch).map
        (fun t => (t, zeroVec))).map Prod.fst = uncachedTextsOf cache batch := by
      have hco : (Prod.fst ∘ fun t : String => (t, zeroVec)) = id := rfl
      rw [List.map_map, hco, List.map_id]
    rw [hkeys]

theorem processBatch_fail_getD (cache : Cache) (batch : List String) (i : ℕ)
    (h : i < batch.length) :
    (processBatch (fun _ => Option.none) cache batch).1.getD i zeroVec =
      (if pyStrip (batch.getD i "") = "" then zeroVec
       else
         match cacheLookup cache (pyStrip (batch.getD i "")) with
         | Option.some v => v
         | Option.none => zeroVec) := by
  have hmem : batch.getD i "" ∈ batch := by
    rw [List.getD_eq_getElem batch "" h]
    exact List.getElem_mem h
  unfold processBatch
  by_cases hv : validTextsOf batch = []
  · rw [if_pos hv]
    have hstrip : pyStrip (batch.getD i "") = "" := by
      by_contra hne
      have hmm : pyStrip (batch.getD i "") ∈ validTextsOf batch :=
        mem_validTextsOf.mpr ⟨List.mem_map.mpr ⟨_, hmem, rfl⟩, hne⟩
      rw [hv] at hmm
      cases hmm
    rw [if_pos hstrip]
    dsimp only
    rw [List.getD_eq_getElem _ _ (by simpa using h)]
    apply List.getElem_replicate
  · rw [if_neg hv]
    dsimp only
    rw [List.getD_eq_getElem _ _ (by simpa using h), List.getElem_map]
    have hbi : batch[i] = batch.getD i "" := (List.getD_eq_getElem batch "" h).symm
    rw [hbi]
    unfold resolveText
    rw [cachedDict_lookup, newDict_fail_lookup]
    by_cases hts : pyStrip (batch.getD i "") = ""
    · rw [if_pos hts, hts]
      have h1 : ¬(("" : String) ∈ validTextsOf batch ∧
          cacheLookup cache "" ≠ Option.none) := by
        rintro ⟨hmm, -⟩
        exact (mem_validTextsOf.mp hmm).2 rfl
      rw [if_neg h1]
      have h2 : ("" : String) ∉ uncachedTextsOf cache batch := by
        intro hmm
        unfold uncachedTextsOf at hmm
        exact (mem_validTextsOf.mp (List.mem_filter.mp hmm).1).2 rfl
      rw [if_neg h2]
    · rw [if_neg hts]
      have hval : pyStrip (batch.getD i "") ∈ validTextsOf batch :=
        mem_validTextsOf.mpr ⟨List.mem_map.mpr ⟨_, hmem, rfl⟩, hts⟩
      cases hc : cacheLookup cache (pyStrip (batch.getD i "")) with
      | some v =>
        rw [if_pos ⟨hval, Option.some_ne_none v⟩]
      | none =>
        have h1 : ¬(pyStrip (batch.getD i "") ∈ validTextsOf batch ∧
            (Option.none : Option (List ℚ)) ≠ Option.none) :=
          fun hh => hh.2 rfl
        rw [if_neg h1]
        have h2 : pyStrip (batch.getD i "") ∈ uncachedTextsOf cache batch := by
          unfold uncachedTextsOf
          exact List.mem_filter.mpr ⟨hval, decide_eq_true hc⟩
        rw [if_pos h2]

theorem batchesGo_sum (bs : ℕ) (hbs : 1 ≤ bs) :
    ∀ (fuel : ℕ) (l : List String), l.length ≤ fuel →
      ((batchesGo bs fuel l).map List.length).sum = l.length := by
  intro fuel
  induction fuel with
  | zero =>
    intro l hl
    have hnil : l = [] := List.length_eq_zero.mp (Nat.le_zero.mp hl)
    subst hnil
    rfl
  | succ f ih =>
    intro l hl
    cases l with
    | nil => rfl
    | cons x xs =>
      simp only [batchesGo, List.map_cons, List.sum_cons]
      have hdrop : ((x :: xs).drop bs).length ≤ f := by
        rw [List.length_drop]
        simp only [List.length_cons]
        simp only [List.length_cons] at hl
        omega
      rw [ih ((x :: xs).drop bs) hdrop]
      rw [List.length_take, List.length_drop]
      simp only [List.length_cons]
      omega

theorem foldl_batches_length (respond : List String → Option (List (List ℚ)))
    (batches : List (List String)) :
    ∀ (acc : List (List ℚ) × Cache),
      ((batches.foldl (fun acc b =>
        let pr := processBatch respond acc.2 b
        (acc.1 ++ pr.1, pr.2)) acc).1).length =
      acc.1.length + ((batches.map List.length).sum) := by
  induction batches with
  | nil => intro acc; simp
  | cons b bs ih =>
    intro acc
    simp only [List.foldl_cons, List.map_cons, List.sum_cons]
    rw [ih]
    simp only [List.length_append, processBatch_length]
    omega

/-- C7 (amended): `generate_batch_embeddings` returns exactly one vector
per input text, in input order (lengths agree for every respond outcome
and cache state); and when the external call for a batch fails, the texts
of that batch resolve as follows: empty/whitespace inputs map to the zero
vector, texts already in the cache map to their cached vector (not the
zero vector as claimed), and all remaining texts map to the zero vector;
no exception escapes (the embedding is a total function). -/
theorem c7_embed_batch :
    (∀ (respond : List String → Option (List (List ℚ))) (cache : Cache)
       (texts : List String) (batchSize : Option ℕ),
      (generateBatchEmbeddings respond cache texts batchSize).1.length =
        texts.length) ∧
    (∀ (cache : Cache) (batch : List String) (i : ℕ), i < batch.length →
      (processBatch (fun _ => Option.none) cache batch).1.getD i zeroVec =
        (if pyStrip (batch.getD i "") = "" then zeroVec
         else
           match cacheLookup cache (pyStrip (batch.getD i "")) with
           | Option.some v => v
           | Option.none => zeroVec)) := by
  constructor
  · intro respond cache texts batchSize
    unfold generateBatchEmbeddings
    by_cases ht : texts = []
    · rw [if_pos ht, ht]
      rfl
    · rw [if_neg ht]
      dsimp only
      rw [foldl_batches_length]
      have hbs : 1 ≤ (match batchSize with
          | Option.some b => if b = 0 then 100 else b
          | Option.none => 100) := by
        cases batchSize with
        | none => norm_num
        | some b =>
          by_cases hb : b = 0
          · simp [hb]
          · simp only [if_neg hb]
            omega
      rw [batchesGo_sum _ hbs texts.length texts le_rfl]
      simp
  · exact processBatch_fail_getD

/-- Witness for C7 (amended): a one-element batch with an empty cache and
a failing backend yields the zero vector for its text. -/
theorem c7_embed_batch_witness :
    ((0:ℕ) < (["hello"] : List String).length) ∧
    ((processBatch (fun _ => Option.none) [] ["hello"]).1.getD 0 zeroVec =
      (if pyStrip ((["hello"] : List String).getD 0 "") = "" then zeroVec
       else
         match cacheLookup [] (pyStrip ((["hello"] : List String).getD 0 "")) with
         | Option.some v => v
         | Option.none => zeroVec)) :=
  ⟨by decide, c7_embed_batch.2 [] ["hello"] 0 (by decide)⟩

def oneVec : List ℚ := List.replicate embedDims 1

/-- Counterexample for C7 as stated: with `"a"` already cached (vector of
ones) and the external call failing on the batch `["a", "b"]`, the output
for `"a"` is its cached vector, not the zero vector, although the batch
call failed. -/
theorem c7_embed_batch_counterexample :
    ((generateBatchEmbeddings (fun _ => Option.none) [("a", oneVec)]
        ["a", "b"] Option.none).1.getD 0 zeroVec = oneVec ∧
      (generateBatchEmbeddings (fun _ => Option.none) [("a", oneVec)]
        ["a", "b"] Option.none).1.getD 1 zeroVec = zeroVec) ∧
    oneVec ≠ zeroVec := by
  have hgen : (generateBatchEmbeddings (fun _ => Option.none) [("a", oneVec)]
      ["a", "b"] Option.none).1 =
      (processBatch (fun _ => Option.none) [("a", oneVec)] ["a", "b"]).1 := rfl
  refine ⟨⟨?_, ?_⟩, ?_⟩
  · rw [hgen, processBatch_fail_getD [("a", oneVec)] ["a", "b"] 0 (by norm_num)]
    rfl
  · rw [hgen, processBatch_fail_getD [("a", oneVec)] ["a", "b"] 1 (by norm_num)]
    rfl
  · intro h
    have h0 : oneVec.getD 0 0 = 1 := rfl
    rw [h] at h0
    have h1 : zeroVec.getD 0 0 = 0 := rfl
    rw [h1] at h0
    exact one_ne_zero h0.symm

/-! ### RAG pipeline (`rag_pipeline.py`)

`RAGPipeline.retrieve_context` and its helpers.  The training-data service
and the vector/hybrid search are external calls whose outcomes are passed
as `Option` parameters (`none` = the call raised); the fallback re-fetch of
the training context in the `except` branch is its own outcome parameter.
`self.max_context_tokens` is 3000 as in the code. -/

structure RAGContext where
  query : String
  retrieved_chunks : List SearchResult
  context_text : String
  source_count : ℕ
  confidence_score : ℚ
  processing_time : ℚ
  context_sources : List String
  token_count : ℤ
deriving Repr, DecidableEq

/-- Python `int(x)` on a non-negative float: truncation (here, rational
truncated division of numerator by denominator). -/
def pyInt (q : ℚ) : ℤ :=
  q.num / (q.den : ℤ)

/-- Digits of `f-string` `{x:.2f}` for a non-negative rational. -/
def fmt2core (q : ℚ) : String :=
  let c : ℤ := pyInt (q * 100 + 1/2)
  let n : ℕ := c.toNat
  let ip := n / 100
  let fp := n % 100
  toString ip ++ "." ++ (if fp < 10 then "0" ++ toString fp else toString fp)

/-- Formatting of `f-string` `{x:.2f}` over the rational model of a float
(round half up; agrees with Python away from representation boundaries). -/
def fmt2 (q : ℚ) : String :=
  if q < 0 then "-" ++ fmt2core (-q) else fmt2core q

/-- `RAGPipeline._format_source_info`: `[Source: … | Document: … |
Type: … | Relevance: …]`; the document and type entries come from the
result metadata when that mapping is non-empty. -/
def formatSourceInfo (result : SearchResult) : String :=
  let base := ["Source: " ++ result.source]
  let withMeta :=
    if result.metadata ≠ [] then
      let filename :=
        match lookupMeta result.metadata "filename" with
        | Option.some f => Option.some f
        | Option.none => lookupMeta result.metadata "original_filename"
      let base2 :=
        match filename with
        | Option.some f => base ++ ["Document: " ++ f]
        | Option.none => base
      match lookupMeta result.metadata "chunk_type" with
      | Option.some ct => base2 ++ ["Type: " ++ ct]
      | Option.none => base2
    else base
  let parts := withMeta ++ ["Relevance: " ++ fmt2 result.similarity]
  "[" ++ joinWith " | " parts ++ "]"

/-- `RAGPipeline._truncate_content`. -/
def truncateContent (content : String) (maxWords : ℕ) : String :=
  let words := pyWords content
  if words.length ≤ maxWords then content
  else joinSp (words.take maxWords) ++ "... [truncated]"

/-- Stable insertion step for the descending sort below. -/
def insertDescBySim (x : SearchResult) : List SearchResult → List SearchResult
  | [] => [x]
  | y :: ys =>
    if y.similarity > x.similarity then y :: insertDescBySim x ys
    else x :: y :: ys

/-- Python `sorted(results, key=lambda x: x.similarity, reverse=True)`:
stable descending sort by similarity. -/
def sortDescBySim : List SearchResult → List SearchResult
  | [] => []
  | x :: xs => insertDescBySim x (sortDescBySim xs)

/-- The result-adding loop of `_build_comprehensive_context` (lines
420-440): stop at 90% capacity, add whole blocks that fit, truncate the
first overflowing block at a word boundary when more than 50 tokens of
budget remain, else skip it; always stop after a truncation. -/
def addResultsLoop (maxTokens : ℚ) :
    List SearchResult → ℚ → (List String × ℚ)
  | [], currentTokens => ([], currentTokens)
  | result :: rest, currentTokens =>
    if currentTokens ≥ maxTokens * (9/10) then ([], currentTokens)
    else
      let sourceInfo := formatSourceInfo result
      let contentBlock := sourceInfo ++ "\n" ++ result.content
      let contentTokens : ℚ := (wordCount contentBlock : ℚ) * (13/10)
      if currentTokens + contentTokens ≤ maxTokens then
        let tl := addResultsLoop maxTokens rest (currentTokens + contentTokens)
        (contentBlock :: tl.1, tl.2)
      else
        let remainingTokens := maxTokens - currentTokens
        if remainingTokens > 50 then
          ([truncateContent contentBlock
              (pyInt (remainingTokens / (13/10))).toNat], currentTokens)
        else ([], currentTokens)

/-- `RAGPipeline._build_comprehensive_context`: the exact training section
is added first when its estimated tokens fit within the whole budget
(otherwise it is dropped entirely); search results are then added in
descending similarity order under the 80%/90% capacity rules, and the
sections are joined with the explicit separator. -/
def buildComprehensiveContext (query trainingContext : String)
    (searchResults : List SearchResult) (maxTokens : ℚ) : String :=
  let step1 : List String × ℚ :=
    if trainingContext ≠ "" then
      let trainingSection := "EXACT TRAINING DATA:\n" ++ trainingContext
      let trainingTokens : ℚ := (wordCount trainingSection : ℚ) * (13/10)
      if 0 + trainingTokens ≤ maxTokens then ([trainingSection], trainingTokens)
      else ([], 0)
    else ([], 0)
  let contextParts := step1.1
  let currentTokens := step1.2
  let allParts :=
    if searchResults ≠ [] ∧ currentTokens < maxTokens * (8/10) then
      let sortedResults := sortDescBySim searchResults
      let vc := addResultsLoop maxTokens sortedResults currentTokens
      if vc.1 ≠ [] then
        contextParts ++ ["SEMANTIC SEARCH RESULTS:\n" ++ joinWith "\n\n" vc.1]
      else contextParts
    else contextParts
  joinWith "\n\n=== CONTEXT SEPARATOR ===\n\n" allParts

/-- `RAGPipeline._calculate_confidence`: factors are appended in
availability order (training presence, then average-top-5 similarity and
diversity when results exist, then query simplicity), padded with zeros at
the end to four entries, combined with the positional weights
`[0.4, 0.3, 0.2, 0.1]`, and clamped to `[0, 1]`. -/
def calcConfidence (trainingContext : String)
    (searchResults : List SearchResult) (query : String) : ℚ :=
  let factors1 : List ℚ := if trainingContext ≠ "" then [9/10] else []
  let factors2 : List ℚ :=
    if searchResults ≠ [] then
      let topResults := searchResults.take 5
      let avgSimilarity :=
        (topResults.map (fun r => r.similarity)).sum / (topResults.length : ℚ)
      let highQualityCount :=
        (searchResults.filter (fun r => r.similarity > 8/10)).length
      let diversityBonus := pyMin ((highQualityCount : ℚ) / 10) (2/10)
      [avgSimilarity, diversityBonus]
    else []
  let queryComplexity := pyMin ((wordCount query : ℚ) / 10) 1
  let simplicityFactor := 1 - queryComplexity * (3/10)
  let confidenceFactors := factors1 ++ factors2 ++ [simplicityFactor]
  if confidenceFactors = [] then 0
  else
    let weights : List ℚ := [4/10, 3/10, 2/10, 1/10]
    let padded :=
      (confidenceFactors ++ List.replicate (4 - confidenceFactors.length) 0).take 4
    let weightedConfidence :=
      ((padded.zip weights).map (fun p => p.1 * p.2)).sum
    pyMin (pyMax weightedConfidence 0) 1

/-- `RAGPipeline.retrieve_context` with the two external calls (training
context fetch and vector/hybrid search) and the `except`-branch re-fetch
of the training context as explicit outcomes; every exception path of the
Python code is a branch here, so the function is total and never raises. -/
def retrieveContext (query : String) (useHybridSearch : Bool)
    (trainingFetch : Option String)
    (searchFetch : Option (List SearchResult))
    (fallbackFetch : Option String) : RAGContext :=
  match trainingFetch, searchFetch with
  | Option.some trainingContext, Option.some vectorResults =>
    let contextSources1 : List String :=
      if trainingContext ≠ "" then ["training_data"] else []
    let searchMethod := if useHybridSearch then "hybrid" else "vector"
    let allResults := vectorResults
    let contextSources :=
      contextSources1 ++ (if vectorResults ≠ [] then [searchMethod] else [])
    let contextText := buildComprehensiveContext query trainingContext allResults 3000
    let confidenceScore := calcConfidence trainingContext allResults query
    let tokenCount := pyInt ((wordCount contextText : ℚ) * (13/10))
    { query := query
      retrieved_chunks := allResults
      context_text := contextText
      source_count := allResults.length
      confidence_score := confidenceScore
      processing_time := 0
      context_sources := contextSources
      token_count := tokenCount }
  | _, _ =>
    match fallbackFetch with
    | Option.some fallbackContext =>
      { query := query
        retrieved_chunks := []
        context_text := fallbackContext
        source_count := 0
        confidence_score := if fallbackContext ≠ "" then 1/2 else 1/10
        processing_time := 0
        context_sources :=
          if fallbackContext ≠ "" then ["training_data_fallback"] else []
        token_count := if fallbackContext ≠ "" then (wordCount fallbackContext : ℤ) else 0 }
    | Option.none =>
      { query := query
        retrieved_chunks := []
        context_text := ""
        source_count := 0
        confidence_score := 0
        processing_time := 0
        context_sources := []
        token_count := 0 }

theorem calcConfidence_bounds (t : String) (rs : List SearchResult)
    (q : String) :
    0 ≤ calcConfidence t rs q ∧ calcConfidence t rs q ≤ 1 := by
  have key : ∀ (l : List ℚ) (w : ℚ),
      0 ≤ (if l = [] then (0:ℚ) else pyMin (pyMax w 0) 1) ∧
      (if l = [] then (0:ℚ) else pyMin (pyMax w 0) 1) ≤ 1 := by
    intro l w
    split
    · norm_num
    · rw [pyMin_eq_min, pyMax_eq_max]
      exact ⟨le_min (le_max_right _ 0) zero_le_one, min_le_right _ 1⟩
  exact key _ _

/-- C9: on every execution path of context retrieval — normal completion,
step-failure fallback with or without recovered training text, and
double-failure fallback — the confidence score of the returned
`RAGContext` lies in `[0, 1]`. -/
theorem c9_confidence_bounds (query : String) (useHybrid : Bool)
    (tr : Option String) (sr : Option (List SearchResult))
    (fb : Option String) :
    0 ≤ (retrieveContext query useHybrid tr sr fb).confidence_score ∧
    (retrieveContext query useHybrid tr sr fb).confidence_score ≤ 1 := by
  rcases tr with _ | t <;> rcases sr with _ | rs <;> rcases fb with _ | fbt <;>
    unfold retrieveContext <;> dsimp only
  · norm_num
  · split <;> norm_num
  · norm_num
  · split <;> norm_num
  · norm_num
  · split <;> norm_num
  · exact calcConfidence_bounds t rs query
  · exact calcConfidence_bounds t rs query

/-- C3: whenever a pipeline step fails (the training fetch or the search
outcome is an exception) and the fallback training re-fetch returns text
`t`, `retrieve_context` returns a context built from `t` alone with
confidence exactly 1/2 when `t` is non-empty and exactly 1/10 otherwise;
and on every path (the double-failure path included) the returned record
is well-formed: `source_count` equals the number of retrieved chunks and
the function is total, so no exception reaches the caller. -/
theorem c3_step_failure_fallback :
    (∀ (query : String) (useHybrid : Bool) (tr : Option String)
       (sr : Option (List SearchResult)) (t : String),
      (tr = Option.none ∨ sr = Option.none) →
      retrieveContext query useHybrid tr sr (Option.some t) =
        { query := query
          retrieved_chunks := []
          context_text := t
          source_count := 0
          confidence_score := if t ≠ "" then 1/2 else 1/10
          processing_time := 0
          context_sources := if t ≠ "" then ["training_data_fallback"] else []
          token_count := if t ≠ "" then (wordCount t : ℤ) else 0 }) ∧
    (∀ (query : String) (useHybrid : Bool) (tr : Option String)
       (sr : Option (List SearchResult)) (fb : Option String),
      (retrieveContext query useHybrid tr sr fb).source_count =
        (retrieveContext query useHybrid tr sr fb).retrieved_chunks.length) := by
  constructor
  · intro query useHybrid tr sr t hfail
    rcases tr with _ | tc
    · rfl
    · rcases sr with _ | rs
      · rfl
      · rcases hfail with h | h <;> exact absurd h (by simp)
  · intro query useHybrid tr sr fb
    rcases tr with _ | tc <;> rcases sr with _ | rs <;>
      rcases fb with _ | fbt <;> rfl

/-- Witness for C3: a failed search outcome with a recovered fallback text
`"t"` produces the 1/2-confidence fallback context. -/
theorem c3_step_failure_fallback_witness :
    ((Option.none : Option String) = Option.none ∨
      (Option.some ([] : List SearchResult)) = Option.none) ∧
    retrieveContext "q" true Option.none (Option.some []) (Option.some "t") =
      { query := "q"
        retrieved_chunks := []
        context_text := "t"
        source_count := 0
        confidence_score := if ("t" : String) ≠ "" then 1/2 else 1/10
        processing_time := 0
        context_sources := if ("t" : String) ≠ "" then ["training_data_fallback"] else []
        token_count := if ("t" : String) ≠ "" then (wordCount "t" : ℤ) else 0 } :=
  ⟨Or.inl rfl,
   c3_step_failure_fallback.1 "q" true Option.none (Option.some []) "t"
     (Or.inl rfl)⟩

/-- C1 (amended): with an empty corpus and no training data (both external
calls succeed and return nothing), the returned context text is empty and
the source count is zero, but the confidence is not 0: the query
simplicity factor shifts into the first weight slot, giving
`0.4 · (1 − min(word_count/10, 1) · 0.3)`, which lies in `[0.28, 0.4]`. -/
theorem c1_no_data (query : String) (useHybrid : Bool) (fb : Option String) :
    (retrieveContext query useHybrid (Option.some "") (Option.some []) fb).context_text = "" ∧
    (retrieveContext query useHybrid (Option.some "") (Option.some []) fb).source_count = 0 ∧
    (retrieveContext query useHybrid (Option.some "") (Option.some []) fb).confidence_score =
      (1 - pyMin ((wordCount query : ℚ) / 10) 1 * (3/10)) * (4/10) := by
  refine ⟨rfl, rfl, ?_⟩
  show calcConfidence "" [] query =
    (1 - pyMin ((wordCount query : ℚ) / 10) 1 * (3/10)) * (4/10)
  have hexp : calcConfidence "" [] query =
      pyMin (pyMax ((1 - pyMin ((wordCount query : ℚ) / 10) 1 * (3/10)) * (4/10) +
        (0 * (3/10) + (0 * (2/10) + (0 * (1/10) + 0)))) 0) 1 := rfl
  rw [hexp]
  have hm0 : 0 ≤ pyMin ((wordCount query : ℚ) / 10) 1 := by
    rw [pyMin_eq_min]
    exact le_min (by positivity) zero_le_one
  have hm1 : pyMin ((wordCount query : ℚ) / 10) 1 ≤ 1 := by
    rw [pyMin_eq_min]
    exact min_le_right _ _
  set m := pyMin ((wordCount query : ℚ) / 10) 1 with hm
  have h1 : (1 - m * (3/10)) * (4/10) +
      (0 * (3/10) + (0 * (2/10) + (0 * (1/10) + 0))) = (1 - m * (3/10)) * (4/10) := by
    ring
  rw [h1]
  have hlo : (0:ℚ) ≤ (1 - m * (3/10)) * (4/10) := by nlinarith
  have hhi : (1 - m * (3/10)) * (4/10) ≤ 1 := by nlinarith
  rw [pyMax_eq_max, max_eq_left hlo, pyMin_eq_min, min_eq_left hhi]

/-- Counterexample for C1 as stated: for the one-word query `"hello"` with
empty training context and empty search results, the returned confidence
is `0.4 · 0.97 = 97/250`, not 0 (context text and source count do match
the claim). -/
theorem c1_no_data_counterexample :
    (retrieveContext "hello" true (Option.some "") (Option.some [])
        Option.none).context_text = "" ∧
    (retrieveContext "hello" true (Option.some "") (Option.some [])
        Option.none).source_count = 0 ∧
    (retrieveContext "hello" true (Option.some "") (Option.some [])
        Option.none).confidence_score = 97/250 ∧
    ¬((97/250 : ℚ) = 0) := by
  refine ⟨rfl, rfl, by with_unfolding_all decide, by norm_num⟩

/-- Modelled from the spec (§4.4): the confidence formula with fixed
factor slots — exact-match presence weighted 0.4, average top-5 similarity
0.3, diversity bonus 0.2, query simplicity 0.1 — where a missing factor
contributes 0 in its own slot.  Defined only to compare with the code's
`calcConfidence`. -/
def confidenceSpecSlots (trainingContext : String)
    (searchResults : List SearchResult) (query : String) : ℚ :=
  let exactFactor : ℚ := if trainingContext ≠ "" then 9/10 else 0
  let avgSimilarity : ℚ :=
    if searchResults ≠ [] then
      ((searchResults.take 5).map (fun r => r.similarity)).sum /
        ((searchResults.take 5).length : ℚ)
    else 0
  let diversityBonus : ℚ :=
    if searchResults ≠ [] then
      pyMin (((searchResults.filter (fun r => r.similarity > 8/10)).length : ℚ) / 10)
        (2/10)
    else 0
  let simplicityFactor : ℚ := 1 - pyMin ((wordCount query : ℚ) / 10) 1 * (3/10)
  pyMin (pyMax ((4/10) * exactFactor + (3/10) * avgSimilarity +
    (2/10) * diversityBonus + (1/10) * simplicityFactor) 0) 1

theorem calcConfidence_filled (a b c : ℚ) :
    (if [(9:ℚ)/10] ++ [a, b] ++ [c] = [] then (0:ℚ)
     else pyMin (pyMax ((List.map (fun p : ℚ × ℚ => p.1 * p.2)
       ((List.take 4 ([(9:ℚ)/10] ++ [a, b] ++ [c] ++
           List.replicate (4 - ([(9:ℚ)/10] ++ [a, b] ++ [c]).length) 0)).zip
         [4/10, 3/10, 2/10, 1/10])).sum) 0) 1) =
    pyMin (pyMax ((4/10) * (9/10) + (3/10) * a + (2/10) * b + (1/10) * c) 0) 1 := by
  show pyMin (pyMax ((9/10) * (4/10) +
      (a * (3/10) + (b * (2/10) + (c * (1/10) + 0)))) 0) 1 = _
  exact congrArg (fun z => pyMin (pyMax z 0) 1) (by ring)

theorem calcConfidence_shifted (a b c : ℚ) :
    (if ([] : List ℚ) ++ [a, b] ++ [c] = [] then (0:ℚ)
     else pyMin (pyMax ((List.map (fun p : ℚ × ℚ => p.1 * p.2)
       ((List.take 4 (([] : List ℚ) ++ [a, b] ++ [c] ++
           List.replicate (4 - (([] : List ℚ) ++ [a, b] ++ [c]).length) 0)).zip
         [4/10, 3/10, 2/10, 1/10])).sum) 0) 1) =
    pyMin (pyMax (a * (4/10) + b * (3/10) + c * (2/10)) 0) 1 := by
  show pyMin (pyMax (a * (4/10) +
      (b * (3/10) + (c * (2/10) + (0 * (1/10) + 0)))) 0) 1 = _
  exact congrArg (fun z => pyMin (pyMax z 0) 1) (by ring)

/-- C2 (amended): the code appends the available factors in order and
applies the weights `[0.4, 0.3, 0.2, 0.1]` positionally, padding with
zeros only at the end.  When all four factors are present (training text
non-empty and results non-empty) this coincides with the spec's fixed
slot assignment; when the training factor is missing, the remaining
factors shift up one slot (similarity takes weight 0.4, diversity 0.3,
simplicity 0.2) instead of keeping their designated slots. -/
theorem c2_confidence_slots :
    (∀ (t : String) (rs : List SearchResult) (q : String),
      t ≠ "" → rs ≠ [] →
      calcConfidence t rs q = confidenceSpecSlots t rs q) ∧
    (∀ (rs : List SearchResult) (q : String),
      rs ≠ [] →
      calcConfidence "" rs q =
        pyMin (pyMax
          (((rs.take 5).map (fun r => r.similarity)).sum /
              ((rs.take 5).length : ℚ) * (4/10) +
            pyMin (((rs.filter (fun r => r.similarity > 8/10)).length : ℚ) / 10)
              (2/10) * (3/10) +
            (1 - pyMin ((wordCount q : ℚ) / 10) 1 * (3/10)) * (2/10)) 0) 1) := by
  constructor
  · intro t rs q ht hrs
    unfold calcConfidence confidenceSpecSlots
    simp only [ne_eq, ht, hrs, not_false_eq_true, if_true]
    exact calcConfidence_filled _ _ _
  · intro rs q hrs
    unfold calcConfidence
    simp only [ne_eq, hrs, not_false_eq_true, if_true, not_true_eq_false,
      if_false]
    exact calcConfidence_shifted _ _ _

/-- Witness for C2 (amended): with both training text and one result
present, the code's confidence equals the spec's fixed-slot formula. -/
theorem c2_confidence_slots_witness :
    ((("T" : String) ≠ "") ∧
      ([⟨Option.none, Option.none, "c", 3/5, [], "hybrid_search", Option.none⟩] :
        List SearchResult) ≠ []) ∧
    calcConfidence "T"
      [⟨Option.none, Option.none, "c", 3/5, [], "hybrid_search", Option.none⟩]
      "hi" =
    confidenceSpecSlots "T"
      [⟨Option.none, Option.none, "c", 3/5, [], "hybrid_search", Option.none⟩]
      "hi" :=
  ⟨⟨by decide, by decide⟩,
   c2_confidence_slots.1 "T"
     [⟨Option.none, Option.none, "c", 3/5, [], "hybrid_search", Option.none⟩]
     "hi" (by decide) (by decide)⟩

set_option maxRecDepth 4000 in
/-- Counterexample for C2 as stated: with no training data and one result
of similarity 0.6 for a one-word query, the code returns
`0.4·0.6 + 0.2·0.97 = 0.434` (similarity shifted into the 0.4 slot),
whereas the fixed-slot formula of the claim gives
`0.3·0.6 + 0.1·0.97 = 0.277`. -/
theorem c2_confidence_slots_counterexample :
    calcConfidence ""
      [⟨Option.none, Option.none, "c", 3/5, [], "hybrid_search", Option.none⟩]
      "hi" = 217/500 ∧
    confidenceSpecSlots ""
      [⟨Option.none, Option.none, "c", 3/5, [], "hybrid_search", Option.none⟩]
      "hi" = 277/1000 ∧
    ¬((217/500 : ℚ) = 277/1000) := by
  refine ⟨by with_unfolding_all decide, by with_unfolding_all decide, by norm_num⟩

theorem intercalate_go_ex (sep : String) (xs : List String) :
    ∀ acc : String, ∃ r, String.intercalate.go acc sep xs = acc ++ r := by
  induction xs with
  | nil =>
    intro acc
    refine ⟨"", ?_⟩
    rw [String.append_empty]
    simp [String.intercalate.go]
  | cons a as ih =>
    intro acc
    rcases ih (acc ++ sep ++ a) with ⟨r, hr⟩
    refine ⟨sep ++ a ++ r, ?_⟩
    calc String.intercalate.go acc sep (a :: as)
        = String.intercalate.go (acc ++ sep ++ a) sep as := rfl
      _ = acc ++ sep ++ a ++ r := hr
      _ = acc ++ (sep ++ a ++ r) := by
          simp [String.append_assoc]

theorem joinWith_cons_ex (sep x : String) (xs : List String) :
    ∃ r, joinWith sep (x :: xs) = x ++ r := by
  unfold joinWith
  show ∃ r, String.intercalate.go x sep xs = x ++ r
  exact intercalate_go_ex sep xs x

/-- C6 (amended): whenever the exact training text is non-empty and its
estimated token count fits within the whole budget, the assembled context
starts with the training section (exact text first, before any retrieved
results); but when the training text alone exceeds the budget it is
dropped entirely, and retrieved passages may still fill the context (see
the counterexample). -/
theorem c6_training_first (query trainingContext : String)
    (searchResults : List SearchResult) (maxTokens : ℚ)
    (ht : trainingContext ≠ "")
    (hfit : (wordCount ("EXACT TRAINING DATA:\n" ++ trainingContext) : ℚ) *
      (13/10) ≤ maxTokens) :
    ∃ rest : String,
      buildComprehensiveContext query trainingContext searchResults maxTokens =
        ("EXACT TRAINING DATA:\n" ++ trainingContext) ++ rest := by
  unfold buildComprehensiveContext
  rw [if_pos ht]
  dsimp only
  rw [if_pos (show (0:ℚ) +
      (wordCount ("EXACT TRAINING DATA:\n" ++ trainingContext) : ℚ) * (13/10) ≤
      maxTokens by linarith)]
  dsimp only
  split
  · split
    · exact joinWith_cons_ex _ _ _
    · exact joinWith_cons_ex _ _ _
  · exact joinWith_cons_ex _ _ _

/-- Witness for C6 (amended): a small training text within budget heads
the assembled context. -/
theorem c6_training_first_witness :
    (("TD" : String) ≠ "") ∧
    ((wordCount ("EXACT TRAINING DATA:\n" ++ "TD") : ℚ) * (13/10) ≤ 1000) ∧
    ∃ rest : String,
      buildComprehensiveContext "q" "TD" [] 1000 =
        ("EXACT TRAINING DATA:\n" ++ "TD") ++ rest :=
  ⟨by decide, by with_unfolding_all decide,
   c6_training_first "q" "TD" [] 1000 (by decide)
     (by with_unfolding_all decide)⟩

/-- Counterexample for C6 as stated: with a token budget of 13, a ten-word
training text (section estimate 16.9 tokens) is dropped from the context
entirely, while the single retrieved result still appears — the exact
text is omitted in favour of a retrieved passage. -/
theorem c6_training_first_counterexample :
    (("w w w w w w w w w w" : String) ≠ "") ∧
    buildComprehensiveContext "q" "w w w w w w w w w w"
      [⟨Option.none, Option.none, "c", 1/2, [], "hybrid_search", Option.none⟩]
      13 =
      "SEMANTIC SEARCH RESULTS:\n[Source: hybrid_search | Relevance: 0.50]\nc" ∧
    hasSubstr
      "SEMANTIC SEARCH RESULTS:\n[Source: hybrid_search | Relevance: 0.50]\nc"
      "w w w w w w w w w w" = false := by
  refine ⟨by decide, by with_unfolding_all decide, by decide⟩

/-! ### Chunk processor (`chunk_processor.py`)

`smart_chunk_document` and its strategy helpers.  The token counter is a
parameter `tc : String → ℚ` standing for `self._count_tokens` (tiktoken is
an external component; `countTokensFallback` below is the in-source
`word_count × 1.3` fallback).  Regular expressions are implemented as
character-list scanners; the `MULTILINE` patterns are interpreted per line
(`_clean_text` collapses all whitespace to single spaces first, so cleaned
documents are single-line and the interpretations coincide). -/

def maxChunkTokens : ℚ := 500

def minChunkTokens : ℚ := 50

/-- Python `re.sub(r'\s+', ' ', text)`: collapse whitespace runs; fuel is
the list length (each step consumes at least one character). -/
def collapseWsFuel : ℕ → List Char → List Char
  | 0, _ => []
  | _, [] => []
  | Nat.succ f, c :: cs =>
    if c.isWhitespace then ' ' :: collapseWsFuel f (dropWhileWs cs)
    else c :: collapseWsFuel f cs

/-- Python `re.sub(r'\r\n|\r|\n', '\n', text)`. -/
def normalizeNewlines : List Char → List Char
  | [] => []
  | '\r' :: '\n' :: cs => '\n' :: normalizeNewlines cs
  | '\r' :: cs => '\n' :: normalizeNewlines cs
  | c :: cs => c :: normalizeNewlines cs

/-- Python `re.sub(r'[.]{3,}', '...', text)` (and the `---` analogue):
squeeze runs of three or more of `ch` down to exactly three. -/
def squeezeRunsFuel (ch : Char) : ℕ → List Char → List Char
  | 0, _ => []
  | _, [] => []
  | Nat.succ f, c :: cs =>
    if c = ch then
      let n := 1 + (cs.takeWhile (fun d => d = ch)).length
      let rest := cs.dropWhile (fun d => d = ch)
      (if 3 ≤ n then [ch, ch, ch] else List.replicate n ch) ++
        squeezeRunsFuel ch f rest
    else c :: squeezeRunsFuel ch f cs

/-- The quote-normalisation substitutions of `_clean_text`: the character
classes in the source contain only the plain ASCII quotes, so both
substitutions replace a quote by itself. -/
def normalizeQuotes (l : List Char) : List Char :=
  l.map (fun c => if c = '"' then '"' else if c = '\'' then '\'' else c)

/-- `ChunkProcessor._clean_text`. -/
def cleanText (text : String) : String :=
  let l1 := collapseWsFuel text.data.length text.data
  let l2 := normalizeNewlines l1
  let l3 := squeezeRunsFuel '.' l2.length l2
  let l4 := squeezeRunsFuel '-' l3.length l3
  let l5 := normalizeQuotes l4
  pyStrip (String.mk l5)

def qaChar (c : Char) : Bool :=
  c = 'Q' || c = 'A' || c = 'q' || c = 'a'

/-- Occurrences of `[QA]:` (case-insensitive), i.e. the matches of
`[QA]:\s*` counted by `_determine_strategy`. -/
def qaMarkerCount : List Char → ℕ
  | [] => 0
  | [_] => 0
  | c :: d :: cs =>
    (if qaChar c && d = ':' then 1 else 0) + qaMarkerCount (d :: cs)

/-- One line matching `^#{1,6}\s+.*$`. -/
def headerLine (l : List Char) : Bool :=
  let n := (l.takeWhile (fun c => c = '#')).length
  let rest := l.dropWhile (fun c => c = '#')
  1 ≤ n && n ≤ 6 &&
    (match rest with
     | c :: _ => c.isWhitespace
     | [] => false)

/-- One line matching `^\s*[-*+•]\s+.*$`. -/
def listLine (l : List Char) : Bool :=
  match dropWhileWs l with
  | c :: rest =>
    (c = '-' || c = '*' || c = '+' || c = '•') &&
      (match rest with
       | d :: _ => d.isWhitespace
       | [] => false)
  | [] => false

/-- One line matching `^\s*[A-Z][a-z]+:\s+`. -/
def dialogueLine (l : List Char) : Bool :=
  match dropWhileWs l with
  | c :: rest =>
    c.isUpper &&
      (let lowers := rest.takeWhile (fun d => d.isLower)
       let tail := rest.dropWhile (fun d => d.isLower)
       1 ≤ lowers.length &&
         (match tail with
          | ':' :: u :: _ => u.isWhitespace
          | _ => false))
  | [] => false

def linesOf (text : String) : List (List Char) :=
  splitChars (fun c => c = '\n') text.data

/-- `ChunkProcessor._determine_strategy` (the paragraph-break count of the
source is computed but unused in the decision and is omitted). -/
def determineStrategy (text : String) : String :=
  let ls := linesOf text
  let headerCount := (ls.filter headerLine).length
  let listCount := (ls.filter listLine).length
  let qaPatterns := qaMarkerCount text.data
  let dialoguePatterns := (ls.filter dialogueLine).length
  if qaPatterns > 3 || dialoguePatterns > 5 then "conversational"
  else if headerCount > 2 || listCount > 5 then "structured"
  else "semantic"

def isEnder (c : Char) : Bool :=
  c = '.' || c = '!' || c = '?'

/-- Python `re.split(r'[.!?]+\s+', text)`: a delimiter is a maximal run of
sentence enders followed by at least one whitespace character (greedy);
an ender run not followed by whitespace stays inside its segment. -/
def sentSplitFuel : ℕ → List Char → List Char → List (List Char)
  | 0, acc, _ => [acc.reverse]
  | _, acc, [] => [acc.reverse]
  | Nat.succ f, acc, c :: cs =>
    if isEnder c then
      let runList := cs.takeWhile isEnder
      let afterRun := cs.dropWhile isEnder
      match afterRun with
      | d :: ds =>
        if d.isWhitespace then
          acc.reverse :: sentSplitFuel f [] (dropWhileWs ds)
        else
          sentSplitFuel f (runList.reverse ++ (c :: acc)) afterRun
      | [] => sentSplitFuel f (runList.reverse ++ (c :: acc)) []
    else sentSplitFuel f (c :: acc) cs

def sentenceSplit (text : String) : List String :=
  (sentSplitFuel text.data.length [] text.data).map String.mk

/-- The clause sub-splitting loop of `_chunk_by_sentences` (lines 256-276),
for a single sentence exceeding the token budget: parts (split on `,`/`;`)
accumulate while the running token sum stays within the budget; an
overflowing part flushes the buffer and starts a new one.  Returns the
emitted chunks (as sentence-part lists) together with the leftover buffer
and its running token count. -/
def partLoop (tc : String → ℚ) :
    List String → List String → ℚ →
    (List (List String) × (List String × ℚ))
  | [], temp, tokens => ([], (temp, tokens))
  | part :: rest, temp, tokens =>
    let partTokens := tc part
    if tokens + partTokens ≤ maxChunkTokens then
      partLoop tc rest (temp ++ [pyStrip part]) (tokens + partTokens)
    else
      let out := partLoop tc rest [pyStrip part] partTokens
      ((if temp ≠ [] then [temp] else []) ++ out.1, out.2)

/-- The sentence accumulation loop of `_chunk_by_sentences` (lines
246-296), returning chunks as lists of accumulated sentence/clause units
(the source emits `' '.join(current_chunk)` at each of the same program
points).  An over-budget sentence is clause-split; otherwise a sentence
that would overflow the buffer flushes it and seeds the next buffer with
the last up-to-two sentences (without re-checking the budget). -/
def chunkLoop (tc : String → ℚ) :
    List String → List String → ℚ → List (List String)
  | [], current, _ => if current ≠ [] then [current] else []
  | sentence :: rest, current, currentTokens =>
    let sentenceTokens := tc sentence
    if sentenceTokens > maxChunkTokens then
      let flushed := if current ≠ [] then [current] else []
      let subParts :=
        (splitChars (fun c => c = ',' || c = ';') sentence.data).map String.mk
      let inner := partLoop tc subParts [] 0
      let leftover :=
        if inner.2.1 ≠ [] then (inner.2.1, inner.2.2) else ([], 0)
      flushed ++ inner.1 ++ chunkLoop tc rest leftover.1 leftover.2
    else
      if currentTokens + sentenceTokens > maxChunkTokens ∧ current ≠ [] then
        let overlapSentences :=
          if current.length > 2 then current.drop (current.length - 2)
          else current
        let newCurrent := overlapSentences ++ [sentence]
        current :: chunkLoop tc rest newCurrent (tc (joinSp newCurrent))
      else
        chunkLoop tc rest (current ++ [sentence]) (currentTokens + sentenceTokens)

/-- `ChunkProcessor._chunk_by_sentences`, with chunks kept as unit lists
(the emitted strings are their space-joins, see `chunkBySentences`). -/
def chunkBySentencesAux (tc : String → ℚ) (text : String) :
    List (List String) :=
  let sentences := ((sentenceSplit text).map pyStrip).filter (fun s => s ≠ "")
  chunkLoop tc sentences [] 0

def chunkBySentences (tc : String → ℚ) (text : String) : List String :=
  (chunkBySentencesAux tc text).map joinSp

/-- Raw chunks as handed to the `smart_chunk_document` loop: plain strings
from the sentence strategy, dicts from the structural/dialogue ones. -/
inductive RawChunk where
  | str (text : String)
  | dict (text : String) (method : String) (startChar endChar : ℕ)
deriving Repr, DecidableEq

/-- Python `{**base, **extra}`. -/
def mergeMeta (base extra : List (String × String)) :
    List (String × String) :=
  base.map (fun p =>
    match lookupMeta extra p.1 with
    | Option.some v => (p.1, v)
    | Option.none => p) ++
  extra.filter (fun p => lookupMeta base p.1 = Option.none)

/-- Line-based model of `header_pattern.split(text)`: the pieces between
full-line header matches (exact for the newline-free cleaned text). -/
def splitByHeaderLines (text : String) : List String :=
  let ls := (linesOf text).map String.mk
  let acc := ls.foldl
    (fun (acc : List (List String) × List String) ln =>
      if headerLine ln.data then (acc.1 ++ [acc.2], [])
      else (acc.1, acc.2 ++ [ln]))
    ([], [])
  (acc.1 ++ [acc.2]).map (joinWith "\n")

/-- Section loop of `ChunkProcessor._chunk_by_structure`. -/
def structLoop (tc : String → ℚ) : List String → ℕ → List RawChunk
  | [], _ => []
  | sectionText :: rest, pos =>
    if pyStrip sectionText = "" then
      structLoop tc rest (pos + sectionText.length)
    else
      (if tc sectionText ≤ maxChunkTokens then
        [RawChunk.dict (pyStrip sectionText) "structural" pos
          (pos + sectionText.length)]
      else
        (chunkBySentences tc sectionText).map
          (fun sub => RawChunk.dict sub "structural_subdivided" pos
            (pos + sub.length))) ++
      structLoop tc rest (pos + sectionText.length)

def chunkByStructure (tc : String → ℚ) (text : String) : List RawChunk :=
  structLoop tc (splitByHeaderLines text) 0

/-- Scanner for `re.finditer(r'[QA]:\s*([^QA]*?)(?=[QA]:|$)', text,
IGNORECASE | DOTALL)`: a match starts at a case-insensitive `Q:`/`A:`;
its content cannot contain any further Q/A letters, so the match extends
to the next Q/A letter (which must be followed by a colon for the
lookahead to succeed — else no match starts here) or to the end of the
text.  Returns the matched texts with their start offsets. -/
def qaScan : ℕ → ℕ → List Char → List (String × ℕ)
  | 0, _, _ => []
  | _, _, [] => []
  | Nat.succ f, pos, c :: cs =>
    if qaChar c then
      match cs with
      | d :: ds =>
        if d = ':' then
          let content := ds.takeWhile (fun x => !qaChar x)
          let after := ds.dropWhile (fun x => !qaChar x)
          let ok := match after with
            | [] => true
            | x :: xs =>
              match xs with
              | y :: _ => qaChar x && y = ':'
              | [] => false
          if ok then
            let matched := c :: ':' :: content
            (String.mk matched, pos) ::
              qaScan f (pos + matched.length) after
          else qaScan f (pos + 1) cs
        else qaScan f (pos + 1) cs
      | [] => []
    else qaScan f (pos + 1) cs

/-- Pair-grouping loop of `ChunkProcessor._chunk_by_dialogue`. -/
def dialogueLoop (tc : String → ℚ) :
    List (String × ℕ) → String → ℚ → ℕ → List RawChunk
  | [], current, _, pos =>
    if current ≠ "" then
      [RawChunk.dict current "dialogue" pos (pos + current.length)]
    else []
  | (m, mstart) :: rest, current, tokens, pos =>
    let qaText := pyStrip m
    let qaTokens := tc qaText
    if tokens + qaTokens ≤ maxChunkTokens then
      dialogueLoop tc rest
        (if current ≠ "" then current ++ "\n\n" ++ qaText else qaText)
        (tokens + qaTokens) pos
    else
      (if current ≠ "" then
        [RawChunk.dict current "dialogue" pos (pos + current.length)]
      else []) ++
      dialogueLoop tc rest qaText qaTokens mstart

/-- `ChunkProcessor._chunk_by_dialogue`, falling back to sentence chunking
when no Q/A pairs are found. -/
def chunkByDialogue (tc : String → ℚ) (text : String) : List RawChunk :=
  let qaMatches := qaScan text.data.length 0 text.data
  if qaMatches = [] then (chunkBySentences tc text).map RawChunk.str
  else dialogueLoop tc qaMatches "" 0 0

structure DocumentChunk where
  text : String
  chunk_index : ℕ
  token_count : ℚ
  metadata : List (String × String)
  chunk_type : String
  start_char : ℕ
  end_char : ℕ
deriving Repr, DecidableEq

/-- Count of maximal digit runs with word boundaries, i.e.
`len(re.findall(r'\b\d+\b', text))`. -/
def isWordChar (c : Char) : Bool :=
  c.isAlpha || c.isDigit || c = '_'

def digitRunsAux : ℕ → Option Char → List Char → ℕ
  | 0, _, _ => 0
  | _, _, [] => 0
  | Nat.succ f, prev, c :: cs =>
    if c.isDigit then
      let rest := cs.dropWhile Char.isDigit
      let beforeOk := match prev with
        | Option.none => true
        | Option.some p => !(isWordChar p)
      let afterOk := match rest with
        | [] => true
        | d :: _ => !(isWordChar d)
      (if beforeOk && afterOk then 1 else 0) +
        digitRunsAux f (Option.some c) rest
    else digitRunsAux f (Option.some c) cs

def digitRunCount (s : String) : ℕ :=
  digitRunsAux s.data.length Option.none s.data

def qaStart (s : String) : Bool :=
  match dropWhileWs s.data with
  | c :: d :: _ => qaChar c && d = ':'
  | _ => false

def listStart (s : String) : Bool :=
  match dropWhileWs s.data with
  | c :: d :: _ =>
    (c = '-' || c = '*' || c = '+' || c = '•') && d.isWhitespace
  | _ => false

def headerStart (s : String) : Bool :=
  let n := (s.data.takeWhile (fun c => c = '#')).length
  let rest := s.data.dropWhile (fun c => c = '#')
  1 ≤ n && n ≤ 6 &&
    (match rest with
     | c :: _ => c.isWhitespace
     | [] => false)

def containsAny (hay : String) (needles : List String) : Bool :=
  needles.any (fun w => hasSubstr hay w)

/-- `ChunkProcessor._identify_chunk_type`. -/
def identifyChunkType (text : String) : String :=
  let textLower := toLowerStr text
  if qaStart text then "qa_pair"
  else if containsAny textLower ["step", "process", "procedure", "method"] then
    "process"
  else if containsAny textLower
      ["definition", "means", "refers to", "is defined as"] then "definition"
  else if pyCount text "?" > 0 then "question"
  else if digitRunCount text > 3 then "data"
  else if containsAny textLower
      ["example", "instance", "such as", "for example"] then "example"
  else if listStart text then "list"
  else if headerStart text then "header"
  else "general"

/-- The raw-chunk processing loop of `smart_chunk_document` (lines 81-107):
enumerate the raw chunks, drop those below the minimum token floor, and
build `DocumentChunk` records keeping the enumeration ordinal as
`chunk_index`. -/
def processLoop (tc : String → ℚ) (metadata : List (String × String)) :
    ℕ → List RawChunk → List DocumentChunk
  | _, [] => []
  | i, cd :: rest =>
    let chunkText := match cd with
      | RawChunk.dict t _ _ _ => t
      | RawChunk.str t => t
    let chunkMetadata := match cd with
      | RawChunk.dict _ m _ _ => mergeMeta metadata [("chunk_method", m)]
      | RawChunk.str _ => metadata
    let startChar := match cd with
      | RawChunk.dict _ _ sc _ => sc
      | RawChunk.str _ => 0
    let endChar := match cd with
      | RawChunk.dict _ _ _ ec => ec
      | RawChunk.str t => t.length
    if tc chunkText < minChunkTokens then processLoop tc metadata (i + 1) rest
    else
      { text := pyStrip chunkText
        chunk_index := i
        token_count := tc chunkText
        metadata := chunkMetadata
        chunk_type := identifyChunkType chunkText
        start_char := startChar
        end_char := endChar } :: processLoop tc metadata (i + 1) rest

def processRawChunks (tc : String → ℚ) (metadata : List (String × String))
    (rawChunks : List RawChunk) : List DocumentChunk :=
  processLoop tc metadata 0 rawChunks

/-- `ChunkProcessor.smart_chunk_document`. -/
def smartChunkDocument (tc : String → ℚ) (text : String)
    (metadata : List (String × String)) : List DocumentChunk :=
  if text = "" ∨ pyStrip text = "" then []
  else
    let cleanTxt := cleanText text
    let strategy := determineStrategy cleanTxt
    let rawChunks : List RawChunk :=
      if strategy = "structured" then chunkByStructure tc cleanTxt
      else if strategy = "conversational" then chunkByDialogue tc cleanTxt
      else (chunkBySentences tc cleanTxt).map RawChunk.str
    processRawChunks tc metadata rawChunks

/-- `ChunkProcessor._count_tokens` when the tiktoken encoding is
unavailable: empty text counts 0, otherwise `word_count × 1.3`. -/
def countTokensFallback (text : String) : ℚ :=
  if text = "" then 0 else (wordCount text : ℚ) * (13/10)

/-- Word-counting state machine equivalent to `len(s.split())`: counts the
maximal non-whitespace runs. -/
def wcAux : Bool → List Char → ℕ
  | _, [] => 0
  | inWord, c :: cs =>
    if c.isWhitespace then wcAux false cs
    else (if inWord then 0 else 1) + wcAux true cs

theorem splitCharsAux_wc (l : List Char) : ∀ acc : List Char,
    ((splitCharsAux (fun c => c.isWhitespace) acc l).filter
      (fun w => w ≠ [])).length =
      (if acc.isEmpty then 0 else 1) + wcAux (!acc.isEmpty) l := by
  induction l with
  | nil =>
    intro acc
    cases acc <;> simp [splitCharsAux, wcAux]
  | cons c cs ih =>
    intro acc
    by_cases hws : c.isWhitespace
    · cases acc with
      | nil =>
        have h1 := ih []
        simp only [List.isEmpty_nil, ne_eq, decide_not, if_true,
          Bool.not_true] at h1
        simp [splitCharsAux, hws, wcAux, h1]
      | cons a as =>
        have h1 := ih []
        simp only [List.isEmpty_nil, ne_eq, decide_not, if_true,
          Bool.not_true] at h1
        simp [splitCharsAux, hws, wcAux, h1]
        omega
    · have h1 := ih (c :: acc)
      simp only [List.isEmpty_cons] at h1
      cases acc with
      | nil =>
        simp only [splitCharsAux, hws, if_false, Bool.false_eq_true]
        rw [h1]
        simp [wcAux, hws]
      | cons a as =>
        simp only [splitCharsAux, hws, if_false, Bool.false_eq_true]
        rw [h1]
        simp [wcAux, hws]

theorem wordCount_eq_wcAux (s : String) : wordCount s = wcAux false s.data := by
  unfold wordCount pyWords splitChars
  rw [List.length_map, splitCharsAux_wc]
  simp

theorem wcAux_allws : ∀ (w : List Char), (∀ c ∈ w, c.isWhitespace) →
    ∀ b, wcAux b w = 0 := by
  intro w
  induction w with
  | nil => intro _ b; rfl
  | cons c cs ih =>
    intro h b
    have hc : c.isWhitespace := h c (List.mem_cons_self c cs)
    simp only [wcAux, hc, if_true]
    exact ih (fun d hd => h d (List.mem_cons_of_mem c hd)) false

theorem wcAux_append_allws (w : List Char) (hw : ∀ c ∈ w, c.isWhitespace) :
    ∀ (l : List Char) (b : Bool), wcAux b (l ++ w) = wcAux b l := by
  intro l
  induction l with
  | nil => intro b; simpa using wcAux_allws w hw b
  | cons c cs ih =>
    intro b
    by_cases hc : c.isWhitespace
    · simp [wcAux, hc, ih]
    · simp [wcAux, hc, ih]

theorem wcAux_dropWhileWs : ∀ l : List Char,
    wcAux false (dropWhileWs l) = wcAux false l := by
  intro l
  induction l with
  | nil => rfl
  | cons c cs ih =>
    by_cases hc : c.isWhitespace
    · simp [dropWhileWs, wcAux, hc, ih]
    · simp [dropWhileWs, wcAux, hc]

theorem exists_ws_decomp : ∀ l : List Char,
    ∃ w, l = w ++ dropWhileWs l ∧ ∀ c ∈ w, c.isWhitespace := by
  intro l
  induction l with
  | nil => exact ⟨[], rfl, by simp⟩
  | cons c cs ih =>
    by_cases hc : c.isWhitespace
    · rcases ih with ⟨w, hw1, hw2⟩
      refine ⟨c :: w, ?_, ?_⟩
      · simp only [dropWhileWs, hc, if_true]
        rw [List.cons_append, ← hw1]
      · intro d hd
        rcases List.mem_cons.mp hd with h | h
        · subst h; exact hc
        · exact hw2 d h
    · refine ⟨[], ?_, by simp⟩
      simp [dropWhileWs, hc]

theorem wordCount_pyStrip (s : String) :
    wordCount (pyStrip s) = wordCount s := by
  rw [wordCount_eq_wcAux, wordCount_eq_wcAux]
  show wcAux false ((dropWhileWs (dropWhileWs s.data).reverse).reverse) =
    wcAux false s.data
  rcases exists_ws_decomp (dropWhileWs s.data).reverse with ⟨w, hw1, hw2⟩
  have hm : dropWhileWs s.data =
      (dropWhileWs (dropWhileWs s.data).reverse).reverse ++ w.reverse := by
    have := congrArg List.reverse hw1
    rw [List.reverse_reverse, List.reverse_append] at this
    exact this
  have hws : ∀ c ∈ w.reverse, c.isWhitespace := by
    intro c hc
    exact hw2 c (List.mem_reverse.mp hc)
  calc wcAux false ((dropWhileWs (dropWhileWs s.data).reverse).reverse)
      = wcAux false ((dropWhileWs (dropWhileWs s.data).reverse).reverse ++
          w.reverse) := (wcAux_append_allws w.reverse hws _ false).symm
    _ = wcAux false (dropWhileWs s.data) := by rw [← hm]
    _ = wcAux false s.data := wcAux_dropWhileWs s.data

theorem wcAux_append_space (l2 : List Char) : ∀ (l1 : List Char) (b : Bool),
    wcAux b (l1 ++ ' ' :: l2) = wcAux b l1 + wcAux false l2 := by
  intro l1
  induction l1 with
  | nil =>
    intro b
    simp [wcAux]
  | cons c cs ih =>
    intro b
    by_cases hc : c.isWhitespace
    · simp [wcAux, hc, ih]
    · simp [wcAux, hc, ih]
      omega

theorem wordCount_append_space (a b : String) :
    wordCount (a ++ " " ++ b) = wordCount a + wordCount b := by
  rw [wordCount_eq_wcAux, wordCount_eq_wcAux, wordCount_eq_wcAux]
  have hdata : (a ++ " " ++ b).data = a.data ++ ' ' :: b.data := by
    rw [String.data_append, String.data_append]
    show (a.data ++ [' ']) ++ b.data = a.data ++ ' ' :: b.data
    rw [List.append_assoc]
    rfl
  rw [hdata, wcAux_append_space]

/-- Sum of per-unit token counts of a buffer, the value tracked by the
running counters of `_chunk_by_sentences`. -/
def tcSum (tc : String → ℚ) (c : List String) : ℚ := (c.map tc).sum

theorem tcSum_nil (tc : String → ℚ) : tcSum tc [] = 0 := rfl

theorem tcSum_append_single (tc : String → ℚ) (l : List String) (s : String) :
    tcSum tc (l ++ [s]) = tcSum tc l + tc s := by
  simp [tcSum]

theorem countTokensFallback_eq (s : String) :
    countTokensFallback s = (wordCount s : ℚ) * (13/10) := by
  unfold countTokensFallback
  split
  · rename_i h
    rw [h]
    have h0 : wordCount "" = 0 := rfl
    rw [h0]
    norm_num
  · rfl

theorem tcFallback_nonneg (s : String) : 0 ≤ countTokensFallback s := by
  rw [countTokensFallback_eq]
  positivity

theorem tcFallback_add (a b : String) :
    countTokensFallback (a ++ " " ++ b) =
      countTokensFallback a + countTokensFallback b := by
  rw [countTokensFallback_eq, countTokensFallback_eq, countTokensFallback_eq,
    wordCount_append_space]
  push_cast
  ring

theorem tcFallback_strip (s : String) :
    countTokensFallback (pyStrip s) = countTokensFallback s := by
  rw [countTokensFallback_eq, countTokensFallback_eq, wordCount_pyStrip]

theorem tc_go (tc : String → ℚ)
    (hadd : ∀ a b, tc (a ++ " " ++ b) = tc a + tc b) :
    ∀ (l : List String) (acc : String),
      tc (String.intercalate.go acc " " l) = tc acc + tcSum tc l := by
  intro l
  induction l with
  | nil =>
    intro acc
    simp [String.intercalate.go, tcSum]
  | cons a as ih =>
    intro acc
    rw [String.intercalate.go, ih, hadd]
    simp [tcSum]
    ring

theorem tc_joinSp (tc : String → ℚ)
    (hadd : ∀ a b, tc (a ++ " " ++ b) = tc a + tc b) (c : List String)
    (hc : c ≠ []) : tc (joinSp c) = tcSum tc c := by
  cases c with
  | nil => exact absurd rfl hc
  | cons x xs =>
    show tc (String.intercalate.go x " " xs) = _
    rw [tc_go tc hadd xs x]
    simp [tcSum]

theorem chunkLoop_cons_long (tc : String → ℚ) (s : String)
    (rest current : List String) (curTok : ℚ)
    (h : tc s > maxChunkTokens) :
    chunkLoop tc (s :: rest) current curTok =
      (if current ≠ [] then [current] else []) ++
      (partLoop tc
        ((splitChars (fun d => d = ',' || d = ';') s.data).map String.mk)
        [] 0).1 ++
      chunkLoop tc rest
        (if (partLoop tc
            ((splitChars (fun d => d = ',' || d = ';') s.data).map String.mk)
            [] 0).2.1 ≠ []
         then ((partLoop tc
            ((splitChars (fun d => d = ',' || d = ';') s.data).map String.mk)
            [] 0).2.1,
           (partLoop tc
            ((splitChars (fun d => d = ',' || d = ';') s.data).map String.mk)
            [] 0).2.2)
         else ([], 0)).1
        (if (partLoop tc
            ((splitChars (fun d => d = ',' || d = ';') s.data).map String.mk)
            [] 0).2.1 ≠ []
         then ((partLoop tc
            ((splitChars (fun d => d = ',' || d = ';') s.data).map String.mk)
            [] 0).2.1,
           (partLoop tc
            ((splitChars (fun d => d = ',' || d = ';') s.data).map String.mk)
            [] 0).2.2)
         else ([], 0)).2 := by
  simp only [chunkLoop]
  rw [if_pos h]

theorem chunkLoop_cons_seed (tc : String → ℚ) (s : String)
    (rest current : List String) (curTok : ℚ)
    (h1 : ¬ tc s > maxChunkTokens)
    (h2 : curTok + tc s > maxChunkTokens ∧ current ≠ []) :
    chunkLoop tc (s :: rest) current curTok =
      current :: chunkLoop tc rest
        ((if current.length > 2 then current.drop (current.length - 2)
          else current) ++ [s])
        (tc (joinSp
          ((if current.length > 2 then current.drop (current.length - 2)
            else current) ++ [s]))) := by
  simp only [chunkLoop]
  rw [if_neg h1, if_pos h2]

theorem chunkLoop_cons_acc (tc : String → ℚ) (s : String)
    (rest current : List String) (curTok : ℚ)
    (h1 : ¬ tc s > maxChunkTokens)
    (h2 : ¬ (curTok + tc s > maxChunkTokens ∧ current ≠ [])) :
    chunkLoop tc (s :: rest) current curTok =
      chunkLoop tc rest (current ++ [s]) (curTok + tc s) := by
  simp only [chunkLoop]
  rw [if_neg h1, if_neg h2]

/-- Invariant of the clause sub-splitting loop: every emitted chunk is a
non-empty buffer that either respects the token budget or is a single
clause part; the leftover buffer satisfies the same bound and its running
counter is exact. -/
theorem partLoop_inv (tc : String → ℚ)
    (htrim : ∀ s, tc (pyStrip s) = tc s) :
    ∀ (parts temp : List String) (tokens : ℚ),
      tokens = tcSum tc temp →
      (tcSum tc temp ≤ maxChunkTokens ∨ temp.length ≤ 1) →
      (∀ c ∈ (partLoop tc parts temp tokens).1,
          c ≠ [] ∧ (tcSum tc c ≤ maxChunkTokens ∨ c.length ≤ 1)) ∧
      (partLoop tc parts temp tokens).2.2 =
        tcSum tc (partLoop tc parts temp tokens).2.1 ∧
      (tcSum tc (partLoop tc parts temp tokens).2.1 ≤ maxChunkTokens ∨
        (partLoop tc parts temp tokens).2.1.length ≤ 1) := by
  intro parts
  induction parts with
  | nil =>
    intro temp tokens h1 h2
    refine ⟨?_, h1, h2⟩
    intro c hc
    simp [partLoop] at hc
  | cons part rest ih =>
    intro temp tokens h1 h2
    by_cases hfits : tokens + tc part ≤ maxChunkTokens
    · have heq : partLoop tc (part :: rest) temp tokens =
          partLoop tc rest (temp ++ [pyStrip part]) (tokens + tc part) := by
        simp [partLoop, hfits]
      rw [heq]
      refine ih (temp ++ [pyStrip part]) (tokens + tc part) ?_ ?_
      · rw [tcSum_append_single, htrim, h1]
      · refine Or.inl ?_
        rw [tcSum_append_single, htrim, ← h1]
        exact hfits
    · have heq : partLoop tc (part :: rest) temp tokens =
          ((if temp ≠ [] then [temp] else []) ++
            (partLoop tc rest [pyStrip part] (tc part)).1,
           (partLoop tc rest [pyStrip part] (tc part)).2) := by
        simp [partLoop, hfits]
      have hrec := ih [pyStrip part] (tc part)
        (by simp [tcSum, htrim]) (Or.inr (by simp))
      rw [heq]
      refine ⟨?_, hrec.2.1, hrec.2.2⟩
      intro c hc
      simp only [List.mem_append] at hc
      rcases hc with hc | hc
      · by_cases ht : temp = []
        · simp [ht] at hc
        · simp only [ne_eq, ht, not_false_eq_true, if_true,
            List.mem_singleton] at hc
          subst hc
          exact ⟨ht, h2⟩
      · exact hrec.1 c hc

/-- Invariant of the sentence accumulation loop: every emitted chunk is a
non-empty buffer that either respects the token budget or consists of at
most three units (an overlap-seeded buffer of two previous sentences and
the incoming one, or a lone clause part). -/
theorem chunkLoop_inv (tc : String → ℚ)
    (hadd : ∀ a b, tc (a ++ " " ++ b) = tc a + tc b)
    (htrim : ∀ s, tc (pyStrip s) = tc s) :
    ∀ (sentences current : List String) (currentTokens : ℚ),
      currentTokens = tcSum tc current →
      (tcSum tc current ≤ maxChunkTokens ∨ current.length ≤ 3) →
      ∀ c ∈ chunkLoop tc sentences current currentTokens,
        c ≠ [] ∧ (tcSum tc c ≤ maxChunkTokens ∨ c.length ≤ 3) := by
  intro sentences
  induction sentences with
  | nil =>
    intro current currentTokens h1 h2 c hc
    by_cases h : current = []
    · simp [chunkLoop, h] at hc
    · simp only [chunkLoop, ne_eq, h, not_false_eq_true, if_true,
        List.mem_singleton] at hc
      subst hc
      exact ⟨h, h2⟩
  | cons sentence rest ih =>
    intro current currentTokens h1 h2 c hc
    by_cases hlong : tc sentence > maxChunkTokens
    · rw [chunkLoop_cons_long tc sentence rest current currentTokens
        hlong] at hc
      have hinner := partLoop_inv tc htrim
        ((splitChars (fun d => d = ',' || d = ';') sentence.data).map
          String.mk) [] 0 (tcSum_nil tc).symm
        (Or.inl (by rw [tcSum_nil]; norm_num [maxChunkTokens]))
      simp only [List.mem_append] at hc
      rcases hc with (hc | hc) | hc
      · by_cases hcur : current = []
        · simp [hcur] at hc
        · simp only [ne_eq, hcur, not_false_eq_true, if_true,
            List.mem_singleton] at hc
          subst hc
          exact ⟨hcur, h2⟩
      · have h3 := hinner.1 c hc
        exact ⟨h3.1, h3.2.elim Or.inl (fun h => Or.inr (by omega))⟩
      · by_cases hleft : (partLoop tc
            ((splitChars (fun d => d = ',' || d = ';') sentence.data).map
              String.mk) [] 0).2.1 = []
        · rw [if_neg (not_not_intro hleft)] at hc
          exact ih [] 0 (tcSum_nil tc).symm (Or.inr (by simp)) c hc
        · rw [if_pos hleft] at hc
          exact ih _ _ hinner.2.1
            (hinner.2.2.elim Or.inl (fun h => Or.inr (by omega))) c hc
    · by_cases hseed :
          currentTokens + tc sentence > maxChunkTokens ∧ current ≠ []
      · rw [chunkLoop_cons_seed tc sentence rest current currentTokens
          hlong hseed] at hc
        rcases List.mem_cons.mp hc with hc | hc
        · subst hc
          exact ⟨hseed.2, h2⟩
        · set ov := if current.length > 2
            then current.drop (current.length - 2) else current with hov
          have hne : ov ++ [sentence] ≠ [] := by simp
          have htok : tc (joinSp (ov ++ [sentence])) =
              tcSum tc (ov ++ [sentence]) := tc_joinSp tc hadd _ hne
          have hlen : (ov ++ [sentence]).length ≤ 3 := by
            rw [List.length_append]
            have hov2 : ov.length ≤ 2 := by
              rw [hov]
              split
              · rw [List.length_drop]
                omega
              · rename_i hgt
                omega
            simp only [List.length_singleton]
            omega
          exact ih (ov ++ [sentence]) _ htok (Or.inr hlen) c hc
      · rw [chunkLoop_cons_acc tc sentence rest current currentTokens
          hlong hseed] at hc
        push_neg at hseed
        by_cases hover : currentTokens + tc sentence > maxChunkTokens
        · have hcur : current = [] := hseed hover
          refine ih (current ++ [sentence]) (currentTokens + tc sentence)
            (by rw [tcSum_append_single, ← h1]) ?_ c hc
          refine Or.inr ?_
          rw [hcur]
          simp
        · refine ih (current ++ [sentence]) (currentTokens + tc sentence)
            (by rw [tcSum_append_single, ← h1]) ?_ c hc
          refine Or.inl ?_
          rw [tcSum_append_single, ← h1]
          exact not_lt.mp hover

/-- C4: amended token-budget bound for `_chunk_by_sentences`.  For every
token counter that is additive over space-joins, invariant under
stripping (both hold for the word-count fallback `countTokensFallback`),
every chunk the chunker emits either respects `max_chunk_tokens` or
consists of at most three units — a lone unsplittable sentence or clause,
or an overlap-seeded buffer of at most two carried-over sentences plus the
incoming one.  The overlap-seeded buffers are NOT re-checked against the
budget (see `c4_token_budget_counterexample`), so the claim's bound holds
only in this weakened form. -/
theorem c4_token_budget (tc : String → ℚ)
    (hadd : ∀ a b, tc (a ++ " " ++ b) = tc a + tc b)
    (htrim : ∀ s, tc (pyStrip s) = tc s)
    (text : String) :
    ∀ c ∈ chunkBySentencesAux tc text,
      tc (joinSp c) ≤ maxChunkTokens ∨ c.length ≤ 3 := by
  intro c hc
  have h := chunkLoop_inv tc hadd htrim
    (((sentenceSplit text).map pyStrip).filter (fun s => s ≠ "")) [] 0
    (tcSum_nil tc).symm
    (Or.inl (by rw [tcSum_nil]; norm_num [maxChunkTokens]))
    c hc
  rcases h.2 with h2 | h2
  · exact Or.inl (by rw [tc_joinSp tc hadd c h.1]; exact h2)
  · exact Or.inr h2

/-- Witness: on the document `"x. y."` with the fallback token counter the
chunker emits the two-sentence chunk `["x", "y."]`, which satisfies the
bound (its join counts `2.6` tokens). -/
theorem c4_token_budget_witness :
    countTokensFallback (joinSp ["x", "y."]) ≤ maxChunkTokens ∨
      (["x", "y."] : List String).length ≤ 3 :=
  c4_token_budget countTokensFallback tcFallback_add tcFallback_strip
    "x. y." ["x", "y."] (by with_unfolding_all decide)

/-- A 384-word sentence: within the 500-token budget under the fallback
counter (499.2 tokens), but overflowing it together with any preceding
sentence. -/
def sentB : String := String.intercalate " " (List.replicate 384 "b") ++ "."

/-- Counterexample document for C4: a one-word sentence followed by
`sentB`. -/
def docC4 : String := "a. " ++ sentB

set_option maxRecDepth 40000 in
set_option maxHeartbeats 2000000 in
/-- C4 counterexample: on `docC4` the chunker emits (after the
minimum-size filter) exactly one chunk, whose text is the space-join of
the two sentences `"a"` and `sentB` and whose recorded `token_count` is
`500.5 > max_chunk_tokens = 500` — even though each of the two sentences
individually fits the budget, i.e. the chunk is not a single atomic
unsplittable unit.  The overlap-seeded buffer of `_chunk_by_sentences`
(line 286) is never re-checked against the budget, refuting the claim
that a chunk formed from splittable sentences never exceeds it. -/
theorem c4_token_budget_counterexample :
    (smartChunkDocument countTokensFallback docC4 []).map
        (fun c => (c.chunk_index, c.token_count, c.text)) =
      [(1, 1001/2, "a " ++ sentB)] ∧
    ¬ ((1001 : ℚ)/2 ≤ maxChunkTokens) ∧
    ((sentenceSplit (cleanText docC4)).map pyStrip).filter (fun s => s ≠ "")
      = ["a", sentB] ∧
    countTokensFallback "a" ≤ maxChunkTokens ∧
    countTokensFallback sentB ≤ maxChunkTokens := by
  with_unfolding_all decide

/-- The processing loop hands out the enumeration ordinal as
`chunk_index`: every produced index is at least the starting ordinal, and
the indices are strictly increasing in list order. -/
theorem processLoop_indices (tc : String → ℚ)
    (metadata : List (String × String)) :
    ∀ (raw : List RawChunk) (i : ℕ),
      (∀ c ∈ processLoop tc metadata i raw, i ≤ c.chunk_index) ∧
      (processLoop tc metadata i raw).Pairwise
        (fun a b => a.chunk_index < b.chunk_index) := by
  intro raw
  induction raw with
  | nil =>
    intro i
    exact ⟨by simp [processLoop], by simp [processLoop]⟩
  | cons cd rest ih =>
    intro i
    cases cd with
    | str t =>
      by_cases hsmall : tc t < minChunkTokens
      · have heq : processLoop tc metadata i (RawChunk.str t :: rest) =
            processLoop tc metadata (i + 1) rest := by
          simp [processLoop, hsmall]
        rw [heq]
        exact ⟨fun c hc => le_trans (Nat.le_succ i) ((ih (i + 1)).1 c hc),
          (ih (i + 1)).2⟩
      · have heq : processLoop tc metadata i (RawChunk.str t :: rest) =
            { text := pyStrip t, chunk_index := i, token_count := tc t,
              metadata := metadata, chunk_type := identifyChunkType t,
              start_char := 0, end_char := t.length } ::
              processLoop tc metadata (i + 1) rest := by
          simp [processLoop, hsmall]
        rw [heq]
        constructor
        · intro c hc
          rcases List.mem_cons.mp hc with hc | hc
          · subst hc
            exact le_refl i
          · exact le_trans (Nat.le_succ i) ((ih (i + 1)).1 c hc)
        · refine List.Pairwise.cons ?_ (ih (i + 1)).2
          intro c hc
          have h1 := (ih (i + 1)).1 c hc
          show i < c.chunk_index
          omega
    | dict t m sc ec =>
      by_cases hsmall : tc t < minChunkTokens
      · have heq :
            processLoop tc metadata i (RawChunk.dict t m sc ec :: rest) =
            processLoop tc metadata (i + 1) rest := by
          simp [processLoop, hsmall]
        rw [heq]
        exact ⟨fun c hc => le_trans (Nat.le_succ i) ((ih (i + 1)).1 c hc),
          (ih (i + 1)).2⟩
      · have heq :
            processLoop tc metadata i (RawChunk.dict t m sc ec :: rest) =
            { text := pyStrip t, chunk_index := i, token_count := tc t,
              metadata := mergeMeta metadata [("chunk_method", m)],
              chunk_type := identifyChunkType t,
              start_char := sc, end_char := ec } ::
              processLoop tc metadata (i + 1) rest := by
          simp [processLoop, hsmall]
        rw [heq]
        constructor
        · intro c hc
          rcases List.mem_cons.mp hc with hc | hc
          · subst hc
            exact le_refl i
          · exact le_trans (Nat.le_succ i) ((ih (i + 1)).1 c hc)
        · refine List.Pairwise.cons ?_ (ih (i + 1)).2
          intro c hc
          have h1 := (ih (i + 1)).1 c hc
          show i < c.chunk_index
          omega

set_option maxRecDepth 40000 in
set_option maxHeartbeats 2000000 in
/-- C10: in every list returned by `smart_chunk_document` the
`chunk_index` values are strictly increasing in list order; they need not
be contiguous: on `docC4` the first raw chunk is dropped for falling
below `min_chunk_tokens`, so the single surviving chunk carries
`chunk_index = 1` at list position 0. -/
theorem c10_chunk_indices :
    (∀ (tc : String → ℚ) (text : String)
        (metadata : List (String × String)),
      (smartChunkDocument tc text metadata).Pairwise
        (fun a b => a.chunk_index < b.chunk_index)) ∧
    (smartChunkDocument countTokensFallback docC4 []).map
        (fun c => c.chunk_index) = [1] := by
  constructor
  · intro tc text metadata
    unfold smartChunkDocument
    split
    · simp
    · exact (processLoop_indices tc metadata _ 0).2
  · with_unfolding_all decide
